import Mathlib

/-!
# resourcereport: the metrics pipeline of `cmd/resourcereport/main.go`

A shallow embedding of `main`, `collectMetrics` and `parseMetrics`, together with
the pieces of the Go standard library they call (`strings.Split`,
`strings.Contains`, `strings.TrimSuffix`, `regexp.FindString`,
`regexp.FindStringSubmatch`, `strconv.ParseFloat`).

Conventions of the embedding.
* A Go `string` is a `List Char`.
* A run-time panic (an index out of range) is the `none` of `Option`.
* The external `docker stats` process is an input: its combined output and
  whether `err != nil`.
* A `float64` is `F64`: a finite value held as an exact rational, the two
  infinities, or NaN.  `strconv.ParseFloat` rounds to the nearest binary64
  number, ties to even, and gives `+Inf` beyond the range.
-/

namespace ResourceReport

/-! ## Strings -/

namespace strings

/-- Go `strings.Split(s, sep)` for a one-character separator: the fields between
the separators, always at least one field. -/
def Split (sep : Char) : List Char → List (List Char)
  | [] => [[]]
  | c :: cs =>
    if c = sep then [] :: Split sep cs
    else
      match Split sep cs with
      | [] => [[c]]
      | f :: fs => (c :: f) :: fs

/-- Go `strings.HasPrefix(s, p)`. -/
def HasPrefix : List Char → List Char → Bool
  | _, [] => true
  | [], _ :: _ => false
  | c :: cs, p :: ps => c == p && HasPrefix cs ps

/-- Go `strings.Contains(s, substr)`: does `substr` occur in `s` at some
position (the empty string occurs everywhere). -/
def Contains : List Char → List Char → Bool
  | [], sub => HasPrefix [] sub
  | c :: cs, sub => HasPrefix (c :: cs) sub || Contains cs sub

/-- Go `strings.TrimSuffix(s, suffix)`: `s` without the trailing `suffix` when it
ends with it, otherwise `s` unchanged. -/
def TrimSuffix (s suffix : List Char) : List Char :=
  if suffix.isSuffixOf s then s.take (s.length - suffix.length) else s

end strings

/-! ## Regular expressions

Both patterns of the program are a sequence of literal characters and of
capture groups `(C+)` over a character class `C`.  Go's `regexp` returns the
leftmost match and, among the matches starting there, the one a backtracking
search finds first: every `+` is greedy and gives characters back only when the
rest of the pattern fails. -/

namespace regexp

/-- One element of a pattern. -/
inductive Item where
  /-- A literal character. -/
  | lit (c : Char)
  /-- A capture group `(C+)`: one or more characters of the class, greedy. -/
  | group (cls : Char → Bool)

/-- Result of a match: the matched text and the text of each capture group. -/
abbrev Match := List Char × List (List Char)

/-- The greedy repetition: with `k` characters taken by the group, try the rest
of the pattern (`next`) after them; on failure give one character back. A group
never matches the empty string. -/
def backtrack (next : List Char → Option Match) (s : List Char) : Nat → Option Match
  | 0 => none
  | k + 1 =>
    match next (s.drop (k + 1)) with
    | some (m, caps) => some (s.take (k + 1) ++ m, s.take (k + 1) :: caps)
    | none => backtrack next s k

/-- Match the pattern at the very start of the text. -/
def matchAt : List Item → List Char → Option Match
  | [] => fun _ => some ([], [])
  | Item.lit c :: rest => fun s =>
    match s with
    | [] => none
    | x :: xs =>
      if x = c then
        match matchAt rest xs with
        | some (m, caps) => some (x :: m, caps)
        | none => none
      else none
  | Item.group cls :: rest => fun s =>
    backtrack (matchAt rest) s (s.takeWhile cls).length

/-- The leftmost match of the pattern in the text. -/
def find (p : List Item) : List Char → Option Match
  | [] => matchAt p []
  | c :: cs =>
    match matchAt p (c :: cs) with
    | some r => some r
    | none => find p cs

/-- Go `(*Regexp).FindString`: the text of the leftmost match, `""` without one. -/
def FindString (p : List Item) (s : List Char) : List Char :=
  match find p s with
  | some (m, _) => m
  | none => []

/-- Go `(*Regexp).FindStringSubmatch`: the matched text followed by the text of
every capture group, or the nil slice without a match. -/
def FindStringSubmatch (p : List Item) (s : List Char) : List (List Char) :=
  match find p s with
  | some (m, caps) => m :: caps
  | none => []

/-- The class `[\d.]`: an ASCII digit or a full stop. -/
def digitOrDot (c : Char) : Bool := c.isDigit || c == '.'

/-- The class `[^/]`: any character but the slash. -/
def notSlash (c : Char) : Bool := c != '/'

end regexp

open regexp in
/-- The pattern `([\d.]+)%` compiled in `parseMetrics`. -/
def cpuRegex : List Item := [Item.group digitOrDot, Item.lit '%']

open regexp in
/-- The pattern `([\d.]+) ([^/]+)/([\d.]+) ([^/]+)` compiled in `parseMetrics`
as `memRegex`. -/
def memRegex : List Item :=
  [Item.group digitOrDot, Item.lit ' ', Item.group notSlash, Item.lit '/',
   Item.group digitOrDot, Item.lit ' ', Item.group notSlash]

open regexp in
/-- The same pattern `([\d.]+) ([^/]+)/([\d.]+) ([^/]+)`, compiled a second
time in `parseMetrics` as `netRegex`. -/
def netRegex : List Item :=
  [Item.group digitOrDot, Item.lit ' ', Item.group notSlash, Item.lit '/',
   Item.group digitOrDot, Item.lit ' ', Item.group notSlash]

/-! ## float64 -/

/-- A `float64` value. Finite values are held exactly. -/
inductive F64 where
  | fin (q : ℚ)
  | posInf
  | negInf
  | nan
  deriving DecidableEq

namespace F64

/-- The float64 zero, Go's zero value of the type. -/
def zero : F64 := fin 0

/-- Go `a < b` on float64: false as soon as one side is NaN. -/
def lt : F64 → F64 → Bool
  | fin a, fin b => decide (a < b)
  | fin _, posInf => true
  | negInf, fin _ => true
  | negInf, posInf => true
  | _, _ => false

/-- Go `a <= b` on float64: false as soon as one side is NaN. -/
def le : F64 → F64 → Bool
  | fin a, fin b => decide (a ≤ b)
  | fin _, posInf => true
  | negInf, fin _ => true
  | negInf, posInf => true
  | posInf, posInf => true
  | negInf, negInf => true
  | _, _ => false

/-- Go `a > b` on float64. -/
def gt (a b : F64) : Bool := lt b a

/-- The integer `⌊log₂ n⌋` by repeated halving (0 for `n < 2`); `fuel` bounds
the number of halvings and `n` itself is always enough. -/
def ilog2 : Nat → Nat → Nat
  | 0, _ => 0
  | fuel + 1, n => if n < 2 then 0 else ilog2 fuel (n / 2) + 1

/-- The binary exponent of `n / d`, that is `⌊log₂ (n / d)⌋`, for positive `n`
and `d`. -/
def binExp (n d : Nat) : Int :=
  if d ≤ n then (ilog2 (n / d) (n / d) : Int)
  else
    let t := ilog2 (d / n) (d / n)
    if n * 2 ^ t = d then -(t : Int) else -((t : Int) + 1)

/-- Round the fraction `num / den` to an integer, halves to the even side. -/
def roundHalfEven (num den : Nat) : Nat :=
  let q := num / den
  let r := num % den
  if 2 * r < den then q
  else if den < 2 * r then q + 1
  else if q % 2 = 0 then q else q + 1

/-- The binary64 number nearest to `n / d` (ties to even) for `d > 0`, or `none`
when the rounded value is beyond the largest finite binary64 number. The result
is a multiple `m * 2 ^ p` of the spacing `2 ^ p` of binary64 at that magnitude:
53 significant bits, and spacing `2 ^ (-1074)` in the subnormal range. -/
def nearestMag (n d : Nat) : Option ℚ :=
  if n = 0 then some 0
  else
    let p : Int := max (binExp n d - 52) (-1074)
    let m := roundHalfEven (n * 2 ^ (-p).toNat) (d * 2 ^ p.toNat)
    if 2 ^ 1024 ≤ m * 2 ^ p.toNat then none
    else some (mkRat (m * 2 ^ p.toNat) (2 ^ (-p).toNat))

/-- The float64 nearest to a rational number: IEEE 754 round-to-nearest-even,
an infinity when the magnitude is out of range. -/
def nearest (q : ℚ) : F64 :=
  match nearestMag q.num.natAbs q.den with
  | some r => fin (if q < 0 then -r else r)
  | none => if q < 0 then negInf else posInf

end F64

namespace strconv

/-- The mantissa scan of `strconv.ParseFloat` on a text of digits and full
stops: the digits read as one integer (`mant`) and the number of digits after
the decimal point (`frac`). A second decimal point, any other character, or a
text without a digit is a syntax error (`none`). -/
def readFloat : List Char → Bool → Bool → Nat → Nat → Option (Nat × Nat)
  | [], _, sawdigits, mant, frac => if sawdigits then some (mant, frac) else none
  | c :: cs, sawdot, sawdigits, mant, frac =>
    if c = '.' then
      if sawdot then none else readFloat cs true sawdigits mant frac
    else if c.isDigit then
      readFloat cs sawdot true (mant * 10 + (c.toNat - 48)) (if sawdot then frac + 1 else frac)
    else none

/-- Go `strconv.ParseFloat(s, 64)` with the error discarded, as every caller in
the program does (`x, _ := strconv.ParseFloat(...)`), on the texts the program
passes to it: captures of `[\d.]+`, made of ASCII digits and full stops only.
A syntax error yields 0; otherwise the result is the float64 nearest to the
decimal value, `+Inf` when that is out of range. Signs, exponents, hexadecimal
floats, underscores and the words `inf` and `nan` need a character outside
`[\d.]` and are not covered: such a text is reported here as a syntax error. -/
def ParseFloat (s : List Char) : F64 :=
  match readFloat s false false 0 0 with
  | some (mant, frac) => F64.nearest ((mant : ℚ) / 10 ^ frac)
  | none => F64.zero

end strconv

/-! ## The program -/

/-- The record `ResourceMetrics`. -/
structure ResourceMetrics where
  Service : List Char
  CPUPercent : F64
  MemoryUsed : F64
  MemoryTotal : F64
  DiskUsed : F64
  DiskTotal : F64
  NetworkRX : F64
  NetworkTX : F64
  Status : String
  deriving DecidableEq

/-- Go's zero value `ResourceMetrics{}`. -/
def ResourceMetrics.empty : ResourceMetrics :=
  { Service := [], CPUPercent := F64.zero, MemoryUsed := F64.zero, MemoryTotal := F64.zero,
    DiskUsed := F64.zero, DiskTotal := F64.zero, NetworkRX := F64.zero,
    NetworkTX := F64.zero, Status := "" }

/-- The CPU block of `parseMetrics` (lines 109-115). -/
def parseCPU (metric : ResourceMetrics) (field : List Char) : ResourceMetrics :=
  let cpuMatch := regexp.FindString cpuRegex field
  if cpuMatch ≠ [] then
    { metric with CPUPercent := strconv.ParseFloat (strings.TrimSuffix cpuMatch ['%']) }
  else metric

/-- The memory block of `parseMetrics` (lines 117-123); `none` is an index out
of range. -/
def parseMemory (metric : ResourceMetrics) (field : List Char) : Option ResourceMetrics :=
  let memMatch := regexp.FindStringSubmatch memRegex field
  if memMatch.length ≥ 5 then do
    let used ← memMatch[1]?
    let metric := { metric with MemoryUsed := strconv.ParseFloat used }
    let total ← memMatch[3]?
    some { metric with MemoryTotal := strconv.ParseFloat total }
  else some metric

/-- The network block of `parseMetrics` (lines 127-132); `none` is an index out
of range. -/
def parseNetwork (metric : ResourceMetrics) (field : List Char) : Option ResourceMetrics :=
  let netMatch := regexp.FindStringSubmatch netRegex field
  if netMatch.length ≥ 5 then do
    let rx ← netMatch[1]?
    let metric := { metric with NetworkRX := strconv.ParseFloat rx }
    let tx ← netMatch[3]?
    some { metric with NetworkTX := strconv.ParseFloat tx }
  else some metric

/-- The status block of `parseMetrics` (lines 135-142). -/
def setStatus (metric : ResourceMetrics) : ResourceMetrics :=
  if F64.gt metric.CPUPercent (F64.fin 80) then { metric with Status := "HIGH" }
  else if F64.gt metric.CPUPercent (F64.fin 50) then { metric with Status := "NORMAL" }
  else { metric with Status := "LOW" }

/-- Go `parseMetrics(parts)`; `none` is a panic (index out of range). -/
def parseMetrics (parts : List (List Char)) : Option ResourceMetrics := do
  let metric := ResourceMetrics.empty
  let p0 ← parts[0]?
  let metric := { metric with Service := p0 }
  let p1 ← parts[1]?
  let metric := parseCPU metric p1
  let p2 ← parts[2]?
  let metric ← parseMemory metric p2
  let metric ←
    if parts.length > 3 then do
      let p3 ← parts[3]?
      parseNetwork metric p3
    else some metric
  some (setStatus metric)

/-- The inner loop of `collectMetrics` (lines 85-91): is some filter string
contained in the service name. -/
def found (service : List Char) : List (List Char) → Bool
  | [] => false
  | s :: rest => if strings.Contains service s then true else found service rest

/-- The loop over the lines in `collectMetrics` (lines 74-100), with the slice
`metrics` built so far; `none` is a panic. -/
def collectLoop (services : List (List Char)) :
    List (List Char) → List ResourceMetrics → Option (List ResourceMetrics)
  | [], metrics => some metrics
  | line :: rest, metrics =>
    if line = [] then collectLoop services rest metrics
    else
      let parts := strings.Split '|' line
      if parts.length ≥ 4 then
        match parts[0]? with
        | none => none
        | some service =>
          if services.length > 0 ∧ found service services = false then
            collectLoop services rest metrics
          else
            match parseMetrics parts with
            | none => none
            | some metric => collectLoop services rest (metrics ++ [metric])
      else collectLoop services rest metrics

/-- Go `collectMetrics(services)`. The `docker stats` process is given by its
combined output and by `failed` (`err != nil`); `none` is a panic. -/
def collectMetrics (output : List Char) (failed : Bool) (services : List (List Char)) :
    Option (List ResourceMetrics) :=
  let metrics : List ResourceMetrics := []
  if failed then some metrics
  else collectLoop services (strings.Split '\n' output) metrics

/-- What a run of the program ends in: `os.Exit(code)` before any report, a
panic, or one of the three report generators run on the records. -/
inductive Outcome where
  | exit (code : Nat)
  | panicked
  | jsonReport (metrics : List ResourceMetrics)
  | htmlReport (metrics : List ResourceMetrics)
  | textReport (metrics : List ResourceMetrics)
  deriving DecidableEq

/-- Go `generateReport(metrics, format)`: the choice of the generator. -/
def generateReport (metrics : List ResourceMetrics) (format : String) : Outcome :=
  if format = "json" then Outcome.jsonReport metrics
  else if format = "html" then Outcome.htmlReport metrics
  else Outcome.textReport metrics

/-- The loop over `os.Args[1:]` in `main` (lines 44-52). -/
def parseArgs : List (List Char) → String → List (List Char) → String × List (List Char)
  | [], format, services => (format, services)
  | arg :: rest, format, services =>
    if arg = "--json".toList then parseArgs rest "json" services
    else if arg = "--html".toList then parseArgs rest "html" services
    else if arg ≠ [] then parseArgs rest format (services ++ [arg])
    else parseArgs rest format services

/-- Go `main`, with `os.Args` and the outcome of the `docker stats` process as
inputs. -/
def main (osArgs : List (List Char)) (output : List Char) (failed : Bool) : Outcome :=
  if osArgs.length < 2 then Outcome.exit 1
  else
    let (format, services) := parseArgs (osArgs.drop 1) "" []
    let format := if format = "" then "text" else format
    match collectMetrics output failed services with
    | none => Outcome.panicked
    | some metrics => generateReport metrics format

/-! ## Vocabulary of the statements -/

namespace regexp

/-- The text `m` is in the language of the pattern, with `caps` the texts of its
capture groups: a literal is that character, a group is a non-empty run of
characters of its class. -/
def Denotes : List Item → List Char → List (List Char) → Prop
  | [], m, caps => m = [] ∧ caps = []
  | Item.lit c :: rest, m, caps => ∃ m', m = c :: m' ∧ Denotes rest m' caps
  | Item.group cls :: rest, m, caps =>
    ∃ g m' caps', m = g ++ m' ∧ caps = g :: caps' ∧ g ≠ [] ∧ (∀ x ∈ g, cls x = true) ∧
      Denotes rest m' caps'

/-- The text contains a match of the pattern. -/
def Occurs (p : List Item) (s : List Char) : Prop :=
  ∃ pre m caps post, s = pre ++ m ++ post ∧ Denotes p m caps

end regexp


/-- The two numbers the pair pattern captures in a field: groups 1 and 3 of the
leftmost match of `memRegex`. -/
def pairCaptures (field : List Char) : Option (List Char × List Char) :=
  match regexp.find memRegex field with
  | some (_, [n1, _, n2, _]) => some (n1, n2)
  | _ => none

/-- The value `parseMetrics` stores for a CPU field. -/
def cpuValue (field : List Char) : F64 :=
  if regexp.FindString cpuRegex field ≠ [] then
    strconv.ParseFloat (strings.TrimSuffix (regexp.FindString cpuRegex field) ['%'])
  else F64.zero

/-- The two values `parseMetrics` stores for a memory or network field. -/
def pairValue (field : List Char) : F64 × F64 :=
  match pairCaptures field with
  | some (a, c) => (strconv.ParseFloat a, strconv.ParseFloat c)
  | none => (F64.zero, F64.zero)

/-- The status `parseMetrics` stores for a CPU percentage. -/
def statusOf (cpu : F64) : String :=
  if F64.gt cpu (F64.fin 80) then "HIGH"
  else if F64.gt cpu (F64.fin 50) then "NORMAL"
  else "LOW"


/-- The number written by a text of decimal digits. -/
def digitsVal (ds : List Char) : Nat :=
  ds.foldl (fun acc c => acc * 10 + (c.toNat - 48)) 0

/-- Every character is an ASCII digit. -/
def AllDigits (l : List Char) : Prop := ∀ c ∈ l, c.isDigit = true

instance (l : List Char) : Decidable (AllDigits l) := by
  unfold AllDigits
  infer_instance

/-- The numeral with integer digits `ds` and, when `fs` is not empty, a decimal
point followed by the further digits `fs`. -/
def numeral (ds fs : List Char) : List Char :=
  if fs = [] then ds else ds ++ '.' :: fs

/-- The numeric value of the numeral `ds.fs`. -/
def numeralValue (ds fs : List Char) : ℚ :=
  (digitsVal ds : ℚ) + (digitsVal fs : ℚ) / 10 ^ fs.length

/-- The first field of a split line. -/
def firstField (parts : List (List Char)) : List Char := parts.headD []

/-- The lines `collectMetrics` makes a record of, in the words of the
specification: not empty, at least four `|`-separated fields, and with a
non-empty filter list a first field that contains one of the filter strings. -/
def Selected (services : List (List Char)) (line : List Char) : Prop :=
  line ≠ [] ∧ 4 ≤ (strings.Split '|' line).length ∧
    (services = [] ∨ ∃ s ∈ services, s <:+: firstField (strings.Split '|' line))

instance (services : List (List Char)) : DecidablePred (Selected services) := by
  intro line
  unfold Selected
  infer_instance


/-- A sample of `docker stats` output in the layout the program asks for: three
containers, one line each. -/
def sampleOutput : List Char :=
  ("web-1|0.50%|10MiB / 1GiB|1kB / 2kB\n" ++
   "web-2|85.00%|20MiB / 1GiB|3kB / 4kB\n" ++
   "cache-1|60.00%|5MiB / 1GiB|0B / 0B\n").toList


/-- Some character of `[\d.]` is immediately followed by a space. -/
def digitThenSpace : List Char → Bool
  | c :: d :: rest => (regexp.digitOrDot c && d == ' ') || digitThenSpace (d :: rest)
  | _ => false

/-! ## Lemmas on the regular expressions -/

namespace regexp

theorem backtrack_some {next : List Char → Option Match} {s : List Char} {k : Nat}
    {r : Match} (h : backtrack next s k = some r) :
    ∃ j m caps, 1 ≤ j ∧ j ≤ k ∧ next (s.drop j) = some (m, caps) ∧
      r = (s.take j ++ m, s.take j :: caps) := by
  induction k with
  | zero => simp [backtrack] at h
  | succ k ih =>
    unfold backtrack at h
    split at h
    · rename_i m caps hn
      refine ⟨k + 1, m, caps, by omega, le_refl _, hn, ?_⟩
      simpa using h.symm
    · obtain ⟨j, m, caps, h1, h2, h3, h4⟩ := ih h
      exact ⟨j, m, caps, h1, by omega, h3, h4⟩

theorem backtrack_top {next : List Char → Option Match} {s : List Char} {k : Nat}
    {m : List Char} {caps : List (List Char)} (h : next (s.drop (k + 1)) = some (m, caps)) :
    backtrack next s (k + 1) = some (s.take (k + 1) ++ m, s.take (k + 1) :: caps) := by
  simp [backtrack, h]

theorem backtrack_isSome {next : List Char → Option Match} {s : List Char} :
    ∀ (k j : Nat), 1 ≤ j → j ≤ k → (next (s.drop j)).isSome = true →
      (backtrack next s k).isSome = true := by
  intro k
  induction k with
  | zero => intro j h1 h2; omega
  | succ k ih =>
    intro j h1 h2 h3
    unfold backtrack
    split
    · simp
    · rename_i hn
      by_cases hj : j = k + 1
      · subst hj; simp [hn] at h3
      · exact ih j h1 (by omega) h3

theorem take_all_cls {cls : Char → Bool} {s : List Char} {j : Nat}
    (hj : j ≤ (s.takeWhile cls).length) : ∀ x ∈ s.take j, cls x = true := by
  intro x hx
  have hs : s = s.takeWhile cls ++ s.dropWhile cls := (List.takeWhile_append_dropWhile cls s).symm
  rw [hs, List.take_append_of_le_length hj] at hx
  exact List.mem_takeWhile_imp (List.mem_of_mem_take hx)

theorem length_le_takeWhile {cls : Char → Bool} {g t : List Char}
    (hg : ∀ x ∈ g, cls x = true) : g.length ≤ ((g ++ t).takeWhile cls).length := by
  rw [List.takeWhile_append_of_pos hg]
  simp

theorem takeWhile_run {cls : Char → Bool} {g t : List Char}
    (hg : ∀ x ∈ g, cls x = true) (ht : ∀ x, t.head? = some x → cls x = false) :
    (g ++ t).takeWhile cls = g := by
  rw [List.takeWhile_append_of_pos hg]
  cases t with
  | nil => simp
  | cons x xs => simp [List.takeWhile, ht x rfl]

theorem matchAt_sound : ∀ (p : List Item) (s m : List Char) (caps : List (List Char)),
    matchAt p s = some (m, caps) → Denotes p m caps ∧ m <+: s := by
  intro p
  induction p with
  | nil =>
    intro s m caps h
    simp only [matchAt, Option.some.injEq, Prod.mk.injEq] at h
    obtain ⟨h1, h2⟩ := h
    subst h1 h2
    exact ⟨⟨rfl, rfl⟩, List.nil_prefix⟩
  | cons item rest ih =>
    intro s m caps h
    cases item with
    | lit c =>
      cases s with
      | nil => simp [matchAt] at h
      | cons x xs =>
        simp only [matchAt] at h
        split at h
        · rename_i hx
          split at h
          · rename_i m' caps' hm
            simp only [Option.some.injEq, Prod.mk.injEq] at h
            obtain ⟨h1, h2⟩ := h
            subst h1 h2 hx
            obtain ⟨hd, hp⟩ := ih xs m' caps' hm
            refine ⟨⟨m', rfl, hd⟩, ?_⟩
            obtain ⟨t, ht⟩ := hp
            exact ⟨t, by simp [← ht]⟩
          · simp at h
        · simp at h
    | group cls =>
      simp only [matchAt] at h
      obtain ⟨j, m', caps', h1, h2, h3, h4⟩ := backtrack_some h
      simp only [Prod.mk.injEq] at h4
      obtain ⟨hm, hc⟩ := h4
      obtain ⟨hd, hp⟩ := ih (s.drop j) m' caps' h3
      refine ⟨⟨s.take j, m', caps', hm, hc, ?_, take_all_cls h2, hd⟩, ?_⟩
      · intro h0
        have hl : (s.take j).length = 0 := by simp [h0]
        have : j ≤ s.length := le_trans h2 (List.takeWhile_prefix cls).length_le
        simp only [List.length_take] at hl
        omega
      · obtain ⟨t, ht⟩ := hp
        refine ⟨t, ?_⟩
        rw [hm, List.append_assoc, ht, List.take_append_drop]

theorem matchAt_complete : ∀ (p : List Item) (s m : List Char) (caps : List (List Char)),
    Denotes p m caps → m <+: s → (matchAt p s).isSome = true := by
  intro p
  induction p with
  | nil => intro s m caps _ _; simp [matchAt]
  | cons item rest ih =>
    intro s m caps hd hp
    cases item with
    | lit c =>
      obtain ⟨m', hm, hd'⟩ := hd
      obtain ⟨t, ht⟩ := hp
      subst hm
      subst ht
      have := ih (m' ++ t) m' caps hd' (List.prefix_append _ _)
      simp only [matchAt, List.cons_append, if_true]
      revert this
      cases matchAt rest (m' ++ t) <;> simp
    | group cls =>
      obtain ⟨g, m', caps', hm, _, hg0, hg, hd'⟩ := hd
      obtain ⟨t, ht⟩ := hp
      subst hm
      subst ht
      simp only [matchAt]
      have hlen : 1 ≤ g.length := by
        cases g with
        | nil => exact absurd rfl hg0
        | cons _ _ => simp
      refine backtrack_isSome _ g.length hlen ?_ ?_
      · rw [List.append_assoc]
        exact length_le_takeWhile hg
      · rw [List.append_assoc, List.drop_left]
        exact ih (m' ++ t) m' caps' hd' (List.prefix_append _ _)

theorem find_sound {p : List Item} : ∀ (s m : List Char) (caps : List (List Char)),
    find p s = some (m, caps) → ∃ pre post, s = pre ++ m ++ post ∧ Denotes p m caps := by
  intro s
  induction s with
  | nil =>
    intro m caps h
    obtain ⟨hd, t, ht⟩ := matchAt_sound p [] m caps (by simpa [find] using h)
    exact ⟨[], t, by simp [ht], hd⟩
  | cons c cs ih =>
    intro m caps h
    unfold find at h
    split at h
    · rename_i r hr
      simp only [Option.some.injEq] at h
      subst h
      obtain ⟨hd, t, ht⟩ := matchAt_sound p (c :: cs) m caps hr
      exact ⟨[], t, by simp [ht], hd⟩
    · obtain ⟨pre, post, hs, hd⟩ := ih m caps h
      exact ⟨c :: pre, post, by simp [hs], hd⟩

theorem find_complete {p : List Item} : ∀ (pre m post : List Char) (caps : List (List Char)),
    Denotes p m caps → (find p (pre ++ m ++ post)).isSome = true := by
  intro pre
  induction pre with
  | nil =>
    intro m post caps hd
    have h := matchAt_complete p (m ++ post) m caps hd (List.prefix_append _ _)
    cases hm : m ++ post with
    | nil => simpa [find, hm] using h
    | cons c cs =>
      rw [hm] at h
      simp only [List.nil_append, hm, find]
      revert h
      cases matchAt p (c :: cs) <;> simp
  | cons c cs ih =>
    intro m post caps hd
    simp only [List.cons_append, find]
    split
    · simp
    · exact ih m post caps hd

/-- The search finds a match exactly when the text contains one. -/
theorem find_isSome_iff (p : List Item) (s : List Char) :
    (find p s).isSome = true ↔ Occurs p s := by
  constructor
  · intro h
    obtain ⟨⟨m, caps⟩, hr⟩ := Option.isSome_iff_exists.mp h
    obtain ⟨pre, post, hs, hd⟩ := find_sound s m caps hr
    exact ⟨pre, m, caps, post, hs, hd⟩
  · rintro ⟨pre, m, caps, post, hs, hd⟩
    rw [hs]
    exact find_complete pre m post caps hd

theorem find_eq_none_iff (p : List Item) (s : List Char) :
    find p s = none ↔ ¬ Occurs p s := by
  rw [← find_isSome_iff]
  cases find p s <;> simp

end regexp

/-! ## Matches found in the first try -/

namespace regexp

theorem matchAt_lit (c : Char) {rest : List Item} {t m : List Char} {caps : List (List Char)}
    (hr : matchAt rest t = some (m, caps)) :
    matchAt (Item.lit c :: rest) (c :: t) = some (c :: m, caps) := by
  simp [matchAt, hr]

/-- A group followed by a character outside its class takes the whole run when
the rest of the pattern matches after it. -/
theorem matchAt_group_run (cls : Char → Bool) {rest : List Item} {g : List Char}
    (t : List Char) {m : List Char} {caps : List (List Char)} (hg0 : g ≠ []) (hg : ∀ x ∈ g, cls x = true)
    (ht : ∀ x, t.head? = some x → cls x = false) (hr : matchAt rest t = some (m, caps)) :
    matchAt (Item.group cls :: rest) (g ++ t) = some (g ++ m, g :: caps) := by
  simp only [matchAt]
  rw [takeWhile_run hg ht]
  obtain ⟨k, hk⟩ : ∃ k, g.length = k + 1 := by
    cases g with
    | nil => exact absurd rfl hg0
    | cons x xs => exact ⟨xs.length, rfl⟩
  have hd : (g ++ t).drop (k + 1) = t := by rw [← hk, List.drop_left]
  have htk : (g ++ t).take (k + 1) = g := by rw [← hk, List.take_left]
  rw [hk, backtrack_top (by rw [hd]; exact hr), htk]

theorem find_of_matchAt {p : List Item} {s : List Char} {r : Match}
    (h : matchAt p s = some r) : find p s = some r := by
  cases s with
  | nil => simpa [find] using h
  | cons c cs => simp [find, h]

/-- The search skips a stretch of text at no position of which the pattern
matches. -/
theorem find_skip {p : List Item} : ∀ (pre s : List Char),
    (∀ a b, pre = a ++ b → b ≠ [] → matchAt p (b ++ s) = none) →
      find p (pre ++ s) = find p s := by
  intro pre
  induction pre with
  | nil => intro s _; rfl
  | cons c cs ih =>
    intro s h
    have h0 := h [] (c :: cs) rfl (by simp)
    simp only [List.cons_append] at h0
    have e : find p (c :: (cs ++ s)) = find p (cs ++ s) := by
      rw [find, h0]
    rw [List.cons_append, e]
    exact ih s (fun a b hab hb => h (c :: a) b (by simp [hab]) hb)

end regexp

theorem digitOrDot_of_isDigit {c : Char} (h : c.isDigit = true) :
    regexp.digitOrDot c = true := by
  simp [regexp.digitOrDot, h]

theorem numeral_ne_nil {ds fs : List Char} (h : ds ≠ []) : numeral ds fs ≠ [] := by
  unfold numeral
  split
  · exact h
  · simp

theorem numeral_digitOrDot {ds fs : List Char} (hd : AllDigits ds) (hf : AllDigits fs) :
    ∀ c ∈ numeral ds fs, regexp.digitOrDot c = true := by
  intro c hc
  unfold numeral at hc
  split at hc
  · exact digitOrDot_of_isDigit (hd c hc)
  · simp only [List.mem_append, List.mem_cons] at hc
    rcases hc with h | h | h
    · exact digitOrDot_of_isDigit (hd c h)
    · subst h; decide
    · exact digitOrDot_of_isDigit (hf c h)

theorem notSlash_of_not_mem {u : List Char} (h : '/' ∉ u) :
    ∀ c ∈ u, regexp.notSlash c = true := by
  intro c hc
  have : c ≠ '/' := fun e => h (e ▸ hc)
  simp [regexp.notSlash, this]

/-- On a field that is exactly `n1 u1/n2 u2`, with `n1` and `n2` runs of digits
and full stops and `u1`, `u2` non-empty without a slash, the pair pattern
matches the whole field and captures `n1` and `n2`. -/
theorem pairCaptures_exact {n1 u1 n2 u2 : List Char}
    (h1 : n1 ≠ []) (h1' : ∀ c ∈ n1, regexp.digitOrDot c = true)
    (h2 : n2 ≠ []) (h2' : ∀ c ∈ n2, regexp.digitOrDot c = true)
    (hu1 : u1 ≠ []) (hu1' : '/' ∉ u1) (hu2 : u2 ≠ []) (hu2' : '/' ∉ u2) :
    pairCaptures (n1 ++ ' ' :: u1 ++ '/' :: n2 ++ ' ' :: u2) = some (n1, n2) := by
  have e4 : regexp.matchAt [regexp.Item.group regexp.notSlash] (u2 ++ []) =
      some (u2 ++ [], [u2]) :=
    regexp.matchAt_group_run regexp.notSlash [] hu2 (notSlash_of_not_mem hu2') (by simp)
      (by simp [regexp.matchAt])
  rw [List.append_nil] at e4
  have e3 := regexp.matchAt_group_run regexp.digitOrDot (' ' :: u2) h2 h2'
    (by intro x hx; simp at hx; subst hx; decide)
    (regexp.matchAt_lit ' ' e4)
  have e2 := regexp.matchAt_group_run regexp.notSlash ('/' :: (n2 ++ ' ' :: u2)) hu1
    (notSlash_of_not_mem hu1') (by intro x hx; simp at hx; subst hx; decide)
    (regexp.matchAt_lit '/' e3)
  have e1 := regexp.matchAt_group_run regexp.digitOrDot
    (' ' :: (u1 ++ '/' :: (n2 ++ ' ' :: u2))) h1 h1'
    (by intro x hx; simp at hx; subst hx; decide)
    (regexp.matchAt_lit ' ' e2)
  have hf := regexp.find_of_matchAt e1
  unfold pairCaptures
  have hs : n1 ++ ' ' :: u1 ++ '/' :: n2 ++ ' ' :: u2 =
      n1 ++ ' ' :: (u1 ++ '/' :: (n2 ++ ' ' :: u2)) := by simp
  rw [hs]
  simp only [memRegex]
  rw [hf]

/-! ## `parseMetrics` in closed form -/

theorem find_memRegex_caps {field m : List Char} {caps : List (List Char)}
    (h : regexp.find memRegex field = some (m, caps)) :
    ∃ n1 u1 n2 u2, caps = [n1, u1, n2, u2] := by
  obtain ⟨pre, post, _, hd⟩ := regexp.find_sound field m caps h
  simp only [memRegex, regexp.Denotes] at hd
  obtain ⟨n1, _, c1, _, h1, _, _, _, _, u1, _, c2, _, h2, _, _, _, _, n2, _, c3, _, h3, _, _,
    _, _, u2, _, c4, _, h4, _, _, _, h5⟩ := hd
  exact ⟨n1, u1, n2, u2, by rw [h1, h2, h3, h4, h5]⟩

theorem parseMemory_eq (metric : ResourceMetrics) (field : List Char) :
    parseMemory metric field =
      some { metric with
        MemoryUsed := match pairCaptures field with
          | some (a, _) => strconv.ParseFloat a
          | none => metric.MemoryUsed
        MemoryTotal := match pairCaptures field with
          | some (_, c) => strconv.ParseFloat c
          | none => metric.MemoryTotal } := by
  unfold parseMemory pairCaptures regexp.FindStringSubmatch
  cases h : regexp.find memRegex field with
  | none => simp
  | some r =>
    obtain ⟨m, caps⟩ := r
    obtain ⟨n1, u1, n2, u2, hc⟩ := find_memRegex_caps h
    subst hc
    simp

theorem parseNetwork_eq (metric : ResourceMetrics) (field : List Char) :
    parseNetwork metric field =
      some { metric with
        NetworkRX := match pairCaptures field with
          | some (a, _) => strconv.ParseFloat a
          | none => metric.NetworkRX
        NetworkTX := match pairCaptures field with
          | some (_, c) => strconv.ParseFloat c
          | none => metric.NetworkTX } := by
  have hnet : netRegex = memRegex := rfl
  unfold parseNetwork pairCaptures regexp.FindStringSubmatch
  rw [hnet]
  cases h : regexp.find memRegex field with
  | none => simp
  | some r =>
    obtain ⟨m, caps⟩ := r
    obtain ⟨n1, u1, n2, u2, hc⟩ := find_memRegex_caps h
    subst hc
    simp

/-- On a list of at least four fields `parseMetrics` returns, and every field of
the record is a function of one input field. -/
theorem parseMetrics_cons4 (p0 p1 p2 p3 : List Char) (rest : List (List Char)) :
    parseMetrics (p0 :: p1 :: p2 :: p3 :: rest) =
      some { Service := p0, CPUPercent := cpuValue p1,
             MemoryUsed := (pairValue p2).1, MemoryTotal := (pairValue p2).2,
             DiskUsed := F64.zero, DiskTotal := F64.zero,
             NetworkRX := (pairValue p3).1, NetworkTX := (pairValue p3).2,
             Status := statusOf (cpuValue p1) } := by
  simp only [parseMetrics, parseMemory_eq, parseNetwork_eq, parseCPU, setStatus, cpuValue,
    pairValue, statusOf, ResourceMetrics.empty, List.getElem?_cons_zero, List.getElem?_cons_succ,
    List.length_cons, Option.bind_eq_bind, Option.some_bind, Option.pure_def, bind_pure_comp]
  have h3 : rest.length + 1 + 1 + 1 + 1 > 3 := by omega
  simp only [h3, if_true, Option.some_bind]
  by_cases hc : regexp.FindString cpuRegex p1 = []
  · simp only [hc, ne_eq, not_true_eq_false, if_false]
    cases pairCaptures p2 <;> cases pairCaptures p3 <;> simp <;> split_ifs <;> rfl
  · simp only [hc, ne_eq, not_false_eq_true, if_true]
    cases pairCaptures p2 <;> cases pairCaptures p3 <;> simp <;> split_ifs <;> rfl

theorem exists_cons4 {α : Type} (l : List α) (h : 4 ≤ l.length) :
    ∃ a b c d rest, l = a :: b :: c :: d :: rest := by
  match l, h with
  | a :: b :: c :: d :: rest, _ => exact ⟨a, b, c, d, rest, rfl⟩

/-! ## Strings and numerals -/

theorem HasPrefix_iff : ∀ (s p : List Char), strings.HasPrefix s p = true ↔ p <+: s := by
  intro s
  induction s with
  | nil =>
    intro p
    cases p with
    | nil => simp [strings.HasPrefix]
    | cons a as => simp [strings.HasPrefix]
  | cons c cs ih =>
    intro p
    cases p with
    | nil => simp [strings.HasPrefix]
    | cons a as =>
      simp only [strings.HasPrefix, Bool.and_eq_true, beq_iff_eq, ih, List.cons_prefix_cons]
      constructor
      · rintro ⟨h1, h2⟩; exact ⟨h1.symm, h2⟩
      · rintro ⟨h1, h2⟩; exact ⟨h1.symm, h2⟩

/-- The function `strings.Contains` decides the substring relation. -/
theorem Contains_iff : ∀ (s sub : List Char), strings.Contains s sub = true ↔ sub <:+: s := by
  intro s
  induction s with
  | nil =>
    intro sub
    simp only [strings.Contains, HasPrefix_iff, List.prefix_nil, List.infix_nil]
  | cons c cs ih =>
    intro sub
    simp only [strings.Contains, Bool.or_eq_true, HasPrefix_iff, ih, List.infix_cons_iff]

theorem found_iff (service : List Char) : ∀ (services : List (List Char)),
    found service services = true ↔ ∃ s ∈ services, s <:+: service := by
  intro services
  induction services with
  | nil => simp [found]
  | cons s rest ih =>
    unfold found
    by_cases h : strings.Contains service s = true
    · simp only [h, if_true, true_iff]
      exact ⟨s, List.mem_cons_self _ _, (Contains_iff _ _).mp h⟩
    · simp only [h, Bool.false_eq_true, if_false, ih, List.mem_cons, exists_eq_or_imp]
      rw [← Contains_iff]
      simp [h]

theorem TrimSuffix_append (g s : List Char) : strings.TrimSuffix (g ++ s) s = g := by
  unfold strings.TrimSuffix
  have h : s.isSuffixOf (g ++ s) = true := by
    simp [List.isSuffixOf, List.reverse_append]
  simp [h]

theorem Split_ne_nil (sep : Char) : ∀ (s : List Char), strings.Split sep s ≠ [] := by
  intro s
  induction s with
  | nil => simp [strings.Split]
  | cons c cs ih =>
    unfold strings.Split
    split
    · simp
    · split
      · simp
      · simp

theorem isDigit_ne_dot {c : Char} (h : c.isDigit = true) : c ≠ '.' := by
  intro hc
  subst hc
  exact absurd h (by decide)

theorem foldl_digits_shift : ∀ (ds : List Char) (mant : Nat),
    ds.foldl (fun acc c => acc * 10 + (c.toNat - 48)) mant =
      mant * 10 ^ ds.length + digitsVal ds := by
  intro ds
  induction ds with
  | nil => intro mant; simp [digitsVal]
  | cons c cs ih =>
    intro mant
    have h0 : digitsVal (c :: cs) = (c.toNat - 48) * 10 ^ cs.length + digitsVal cs := by
      unfold digitsVal
      rw [List.foldl_cons, ih]
      simp [digitsVal]
    rw [List.foldl_cons, ih, h0, List.length_cons, pow_succ]
    ring

theorem readFloat_digits : ∀ (ds rest : List Char) (sawdot sawdigits : Bool) (mant frac : Nat),
    AllDigits ds →
    strconv.readFloat (ds ++ rest) sawdot sawdigits mant frac =
      strconv.readFloat rest sawdot (sawdigits || !ds.isEmpty)
        (mant * 10 ^ ds.length + digitsVal ds) (if sawdot then frac + ds.length else frac) := by
  intro ds
  induction ds with
  | nil => intro rest sawdot sawdigits mant frac _; simp [digitsVal]
  | cons c cs ih =>
    intro rest sawdot sawdigits mant frac h
    have hc : c.isDigit = true := h c (List.mem_cons_self _ _)
    have hcs : AllDigits cs := fun x hx => h x (List.mem_cons_of_mem _ hx)
    have h0 : digitsVal (c :: cs) = (c.toNat - 48) * 10 ^ cs.length + digitsVal cs := by
      unfold digitsVal
      rw [List.foldl_cons, foldl_digits_shift]
      simp [digitsVal]
    simp only [List.cons_append, strconv.readFloat, isDigit_ne_dot hc, hc, if_true, if_false,
      List.append_eq]
    rw [ih rest sawdot true _ _ hcs, h0]
    congr 1
    · simp
    · simp only [List.length_cons, pow_succ]; ring
    · cases sawdot
      · simp
      · simp; omega

/-- On a numeral `strconv.ParseFloat` returns the float64 nearest to its value. -/
theorem ParseFloat_numeral (ds fs : List Char) (h0 : ds ≠ []) (hd : AllDigits ds)
    (hf : AllDigits fs) :
    strconv.ParseFloat (numeral ds fs) = F64.nearest (numeralValue ds fs) := by
  have hne : ds.isEmpty = false := by cases ds <;> simp_all
  unfold strconv.ParseFloat numeral numeralValue
  by_cases hfs : fs = []
  · subst hfs
    have h := readFloat_digits ds [] false false 0 0 hd
    simp only [List.append_nil] at h
    simp [h, hne, strconv.readFloat, digitsVal]
  · have h := readFloat_digits ds ('.' :: fs) false false 0 0 hd
    have h2 := readFloat_digits fs [] true true (digitsVal ds) 0 hf
    simp only [List.append_nil] at h2
    have h10 : (10 : ℚ) ^ fs.length ≠ 0 := by positivity
    simp only [hfs, if_false, h, strconv.readFloat, if_true, Nat.zero_mul, Nat.zero_add,
      Bool.false_eq_true, hne, Bool.not_false, Bool.or_true]
    rw [h2]
    simp only [strconv.readFloat, Bool.true_or, if_true, Nat.zero_add]
    congr 1
    push_cast
    field_simp

/-! ## The loop of `collectMetrics` -/

theorem firstField_Split (sep : Char) : ∀ (s : List Char),
    firstField (strings.Split sep s) = s.takeWhile (fun c => c != sep) := by
  intro s
  induction s with
  | nil => simp [strings.Split, firstField]
  | cons c cs ih =>
    unfold strings.Split
    by_cases h : c = sep
    · simp [h, firstField]
    · simp only [h, if_false]
      have hne := Split_ne_nil sep cs
      cases hs : strings.Split sep cs with
      | nil => exact absurd hs hne
      | cons f fs =>
        rw [hs] at ih
        simp only [firstField, List.headD_cons] at ih
        have hb : (c != sep) = true := by simp [h]
        simp [firstField, List.takeWhile, hb, ih]

/-- The loop appends to `metrics`, in order, one record for each selected line:
the record `parseMetrics` makes of its fields. -/
theorem collectLoop_eq (services : List (List Char)) :
    ∀ (lines : List (List Char)) (metrics : List ResourceMetrics),
    ∃ rs, collectLoop services lines metrics = some (metrics ++ rs) ∧
      rs.map some = (lines.filter (fun l => decide (Selected services l))).map
        (fun l => parseMetrics (strings.Split '|' l)) := by
  intro lines
  induction lines with
  | nil => intro metrics; exact ⟨[], by simp [collectLoop], by simp⟩
  | cons line rest ih =>
    intro metrics
    by_cases h1 : line = []
    · obtain ⟨rs, hrs, hmap⟩ := ih metrics
      refine ⟨rs, ?_, ?_⟩
      · simp [collectLoop, h1, hrs]
      · simp [List.filter_cons, Selected, h1, hmap]
    · by_cases h4 : 4 ≤ (strings.Split '|' line).length
      · obtain ⟨a, b, c, d, r, hp⟩ := exists_cons4 _ h4
        by_cases hsel : services = [] ∨ ∃ s ∈ services, s <:+: a
        · have hS : Selected services line := ⟨h1, h4, by simpa [hp, firstField] using hsel⟩
          have hcond : ¬ (services.length > 0 ∧ found a services = false) := by
            rintro ⟨hl, hf⟩
            rcases hsel with h | h
            · subst h; simp at hl
            · rw [← found_iff] at h
              rw [h] at hf
              exact absurd hf (by simp)
          obtain ⟨m, hm⟩ : ∃ m, parseMetrics (a :: b :: c :: d :: r) = some m :=
            ⟨_, parseMetrics_cons4 a b c d r⟩
          obtain ⟨rs, hrs, hmap⟩ := ih (metrics ++ [m])
          refine ⟨m :: rs, ?_, ?_⟩
          · simp only [collectLoop, h1, if_false, hp, List.length_cons, List.getElem?_cons_zero,
              hm, hcond]
            have h4' : r.length + 1 + 1 + 1 + 1 ≥ 4 := by omega
            simp only [h4', if_true, hrs, List.append_assoc, List.singleton_append]
          · simp only [List.filter_cons, hS, decide_True, if_true, List.map_cons, hmap, hp,
              hm]
        · have hS : ¬ Selected services line := by
            rintro ⟨_, _, h⟩
            exact hsel (by simpa [hp, firstField] using h)
          have hcond : services.length > 0 ∧ found a services = false := by
            push_neg at hsel
            refine ⟨List.length_pos.mpr hsel.1, ?_⟩
            cases hf : found a services with
            | false => rfl
            | true =>
              obtain ⟨s, hs, hi⟩ := (found_iff a services).mp hf
              exact absurd hi (hsel.2 s hs)
          obtain ⟨rs, hrs, hmap⟩ := ih metrics
          refine ⟨rs, ?_, ?_⟩
          · simp only [collectLoop, h1, if_false, hp, List.length_cons, List.getElem?_cons_zero]
            have h4' : r.length + 1 + 1 + 1 + 1 ≥ 4 := by omega
            simp only [h4', if_true]
            rw [if_pos hcond]
            exact hrs
          · simp only [List.filter_cons, hS, decide_False, hmap]
            simp
      · have hS : ¬ Selected services line := fun h => h4 h.2.1
        obtain ⟨rs, hrs, hmap⟩ := ih metrics
        refine ⟨rs, ?_, ?_⟩
        · simp only [collectLoop, h1, if_false]
          rw [if_neg (by simpa using h4)]
          exact hrs
        · simp only [List.filter_cons, hS, decide_False, hmap]
          simp

theorem collectMetrics_eq (output : List Char) (services : List (List Char)) :
    ∃ rs, collectMetrics output false services = some rs ∧
      rs.map some = ((strings.Split '\n' output).filter
        (fun l => decide (Selected services l))).map
          (fun l => parseMetrics (strings.Split '|' l)) := by
  obtain ⟨rs, hrs, hmap⟩ := collectLoop_eq services (strings.Split '\n' output) []
  exact ⟨rs, by simpa [collectMetrics] using hrs, hmap⟩

/-! ## Rounding is to nearest, ties to even -/

theorem ilog2_eq : ∀ (fuel n : Nat), n ≤ fuel → F64.ilog2 fuel n = Nat.log 2 n := by
  intro fuel
  induction fuel with
  | zero =>
    intro n h
    have : n = 0 := by omega
    subst this
    simp [F64.ilog2]
  | succ f ih =>
    intro n h
    unfold F64.ilog2
    by_cases h2 : n < 2
    · simp [h2, Nat.log_of_lt h2]
    · simp only [h2, if_false]
      have h3 : 2 ≤ n := by omega
      rw [ih (n / 2) (by omega), ← Nat.log_of_one_lt_of_le (by norm_num) h3]

theorem div_bounds (n d : Nat) (hd : 0 < d) : n / d * d ≤ n ∧ n < (n / d + 1) * d := by
  exact ⟨Nat.div_mul_le_self n d, (Nat.div_lt_iff_lt_mul hd).mp (Nat.lt_succ_self _)⟩

theorem log_bounds (k : Nat) (hk : 1 ≤ k) :
    2 ^ Nat.log 2 k ≤ k ∧ k + 1 ≤ 2 ^ (Nat.log 2 k + 1) :=
  ⟨Nat.pow_log_le_self 2 (by omega), Nat.lt_pow_succ_log_self (by norm_num) k⟩

theorem binExp_spec (n d : Nat) (hn : 0 < n) (hd : 0 < d) :
    (2 : ℚ) ^ (F64.binExp n d) ≤ (n : ℚ) / d ∧ (n : ℚ) / d < (2 : ℚ) ^ (F64.binExp n d + 1) := by
  have hdq : (0 : ℚ) < d := by exact_mod_cast hd
  have hnq : (0 : ℚ) < n := by exact_mod_cast hn
  unfold F64.binExp
  by_cases h : d ≤ n
  · simp only [h, if_true]
    have hk : 1 ≤ n / d := (Nat.one_le_div_iff hd).mpr h
    rw [ilog2_eq _ _ le_rfl]
    obtain ⟨h1, h2⟩ := log_bounds _ hk
    obtain ⟨h3, h4⟩ := div_bounds n d hd
    have h5 : 2 ^ Nat.log 2 (n / d) * d ≤ n := le_trans (Nat.mul_le_mul_right d h1) h3
    have h6 : n < 2 ^ (Nat.log 2 (n / d) + 1) * d := lt_of_lt_of_le h4 (Nat.mul_le_mul_right d h2)
    constructor
    · rw [le_div_iff₀ hdq, zpow_natCast]
      exact_mod_cast h5
    · rw [div_lt_iff₀ hdq]
      have : ((Nat.log 2 (n / d) : ℤ) + 1) = ((Nat.log 2 (n / d) + 1 : ℕ) : ℤ) := by push_cast; ring
      rw [this, zpow_natCast]
      exact_mod_cast h6
  · simp only [h, if_false]
    have hlt : n < d := by omega
    have hk : 1 ≤ d / n := (Nat.one_le_div_iff hn).mpr (by omega)
    rw [ilog2_eq _ _ le_rfl]
    obtain ⟨h1, h2⟩ := log_bounds _ hk
    obtain ⟨h3, h4⟩ := div_bounds d n hn
    set t := Nat.log 2 (d / n) with ht
    have h5 : n * 2 ^ t ≤ d := by
      calc n * 2 ^ t ≤ n * (d / n) := Nat.mul_le_mul_left n h1
        _ = d / n * n := Nat.mul_comm _ _
        _ ≤ d := h3
    have h6 : d < n * 2 ^ (t + 1) := by
      calc d < (d / n + 1) * n := h4
        _ ≤ 2 ^ (t + 1) * n := Nat.mul_le_mul_right n h2
        _ = n * 2 ^ (t + 1) := Nat.mul_comm _ _
    have h5q : (n : ℚ) * 2 ^ t ≤ d := by exact_mod_cast h5
    have h6q : (d : ℚ) < n * 2 ^ (t + 1) := by exact_mod_cast h6
    have hpos : (0 : ℚ) < 2 ^ t := by positivity
    by_cases he : n * 2 ^ t = d
    · simp only [he, if_true]
      have heq : (n : ℚ) * 2 ^ t = d := by exact_mod_cast he
      have hq : (n : ℚ) / d = ((2 : ℚ) ^ t)⁻¹ := by
        rw [← heq]; field_simp
      rw [hq, zpow_neg, zpow_natCast]
      refine ⟨le_refl _, ?_⟩
      rw [zpow_add₀ (by norm_num), zpow_neg, zpow_natCast, zpow_one]
      have : (0:ℚ) < ((2:ℚ) ^ t)⁻¹ := by positivity
      linarith
    · simp only [he, if_false]
      have hlt2 : (n : ℚ) * 2 ^ t < d := lt_of_le_of_ne h5q (by exact_mod_cast he)
      constructor
      · rw [le_div_iff₀ hdq, zpow_neg]
        have : ((t : ℤ) + 1) = ((t + 1 : ℕ) : ℤ) := by push_cast; ring
        rw [this, zpow_natCast, inv_mul_le_iff₀ (by positivity)]
        linarith
      · rw [div_lt_iff₀ hdq]
        have : (-((t : ℤ) + 1) + 1) = -(t : ℤ) := by ring
        rw [this, zpow_neg, zpow_natCast, inv_mul_eq_div, lt_div_iff₀ hpos]
        exact hlt2

theorem roundHalfEven_spec (num den : Nat) (hd : 0 < den) :
    |(num : ℚ) / den - (F64.roundHalfEven num den : ℚ)| ≤ 1 / 2 ∧
    (2 * |(num : ℚ) / den - (F64.roundHalfEven num den : ℚ)| = 1 →
      F64.roundHalfEven num den % 2 = 0) := by
  have hdq : (0 : ℚ) < den := by exact_mod_cast hd
  have h1 : (num : ℚ) = den * (num / den : ℕ) + (num % den : ℕ) := by
    exact_mod_cast (Nat.div_add_mod num den).symm
  have h2 : ((num % den : ℕ) : ℚ) < den := by exact_mod_cast Nat.mod_lt num hd
  have h3 : (0 : ℚ) ≤ ((num % den : ℕ) : ℚ) := by positivity
  have hx : (num : ℚ) / den = (num / den : ℕ) + ((num % den : ℕ) : ℚ) / den := by
    rw [h1]; field_simp; ring
  set q := num / den with hq
  set r := num % den with hr
  unfold F64.roundHalfEven
  simp only [← hq, ← hr]
  by_cases c1 : 2 * r < den
  · simp only [c1, if_true]
    have c1q : 2 * (r : ℚ) < den := by exact_mod_cast c1
    have e : (num : ℚ) / den - q = (r : ℚ) / den := by rw [hx]; ring
    have hpos : (0 : ℚ) ≤ (r : ℚ) / den := by positivity
    have hlt : (r : ℚ) / den < 1 / 2 := by
      rw [div_lt_iff₀ hdq]; linarith
    rw [e, abs_of_nonneg hpos]
    exact ⟨le_of_lt hlt, fun h => by linarith⟩
  · simp only [c1, if_false]
    by_cases c2 : den < 2 * r
    · simp only [c2, if_true]
      have c2q : (den : ℚ) < 2 * r := by exact_mod_cast c2
      have e : (num : ℚ) / den - ((q + 1 : ℕ) : ℚ) = -((den - (r : ℚ)) / den) := by
        rw [hx]; push_cast; field_simp; ring
      have hpos : (0 : ℚ) ≤ (den - (r : ℚ)) / den := by
        apply div_nonneg <;> linarith
      have hlt : (den - (r : ℚ)) / den < 1 / 2 := by
        rw [div_lt_iff₀ hdq]; linarith
      rw [e, abs_neg, abs_of_nonneg hpos]
      exact ⟨le_of_lt hlt, fun h => by linarith⟩
    · simp only [c2, if_false]
      have c3 : 2 * r = den := by omega
      have c3q : 2 * (r : ℚ) = den := by exact_mod_cast c3
      have hr2 : (r : ℚ) / den = 1 / 2 := by
        rw [div_eq_iff (ne_of_gt hdq)]; linarith
      have a1 : |(1 / 2 : ℚ)| = 1 / 2 := abs_of_pos (by norm_num)
      by_cases c4 : q % 2 = 0
      · simp only [c4, if_true]
        have e : (num : ℚ) / den - q = 1 / 2 := by rw [hx, hr2]; ring
        rw [e, a1]
        exact ⟨le_refl _, fun _ => trivial⟩
      · simp only [c4, if_false]
        have e : (num : ℚ) / den - ((q + 1 : ℕ) : ℚ) = -(1 / 2) := by
          rw [hx, hr2]; push_cast; ring
        rw [e, abs_neg, a1]
        exact ⟨le_refl _, fun _ => by omega⟩

theorem zpow_split (p : ℤ) : (2 : ℚ) ^ p = 2 ^ p.toNat / 2 ^ (-p).toNat := by
  rcases le_or_lt 0 p with h | h
  · have hA : (-p).toNat = 0 := Int.toNat_eq_zero.mpr (by omega)
    have hB : (p.toNat : ℤ) = p := Int.toNat_of_nonneg h
    rw [hA, pow_zero, div_one, ← zpow_natCast, hB]
  · have hB : p.toNat = 0 := Int.toNat_eq_zero.mpr (by omega)
    have hA : ((-p).toNat : ℤ) = -p := Int.toNat_of_nonneg (by omega)
    have : p = -((-p).toNat : ℤ) := by omega
    rw [hB, pow_zero, one_div, ← zpow_natCast, ← zpow_neg, ← this]

theorem nearestMag_spec (n d : Nat) (hn : 0 < n) (hd : 0 < d) :
    ∃ (m : ℕ) (p : ℤ), -1074 ≤ p ∧ m ≤ 2 ^ 53 ∧ (p = -1074 ∨ 2 ^ 52 ≤ m) ∧
      |(n : ℚ) / d - (m : ℚ) * (2 : ℚ) ^ p| ≤ (2 : ℚ) ^ p / 2 ∧
      (2 * |(n : ℚ) / d - (m : ℚ) * (2 : ℚ) ^ p| = (2 : ℚ) ^ p → m % 2 = 0) ∧
      F64.nearestMag n d =
        if (2 : ℚ) ^ 1024 ≤ (m : ℚ) * (2 : ℚ) ^ p then none
        else some ((m : ℚ) * (2 : ℚ) ^ p) := by
  obtain ⟨he1, he2⟩ := binExp_spec n d hn hd
  set e := F64.binExp n d with he
  set p : ℤ := max (e - 52) (-1074) with hp
  have hp1 : -1074 ≤ p := le_max_right _ _
  have hp2 : e - 52 ≤ p := le_max_left _ _
  set A := (-p).toNat with hA
  set B := p.toNat with hB
  have hAB : (2 : ℚ) ^ p = 2 ^ B / 2 ^ A := zpow_split p
  have h2p : (0 : ℚ) < 2 ^ p := by positivity
  have hdq : (0 : ℚ) < d := by exact_mod_cast hd
  set m := F64.roundHalfEven (n * 2 ^ A) (d * 2 ^ B) with hm
  set x : ℚ := (n : ℚ) / d / 2 ^ p with hx
  have hxe : ((n * 2 ^ A : ℕ) : ℚ) / ((d * 2 ^ B : ℕ) : ℚ) = x := by
    rw [hx, hAB]; push_cast; field_simp
  obtain ⟨r1, r2⟩ := roundHalfEven_spec (n * 2 ^ A) (d * 2 ^ B) (by positivity)
  rw [hxe, ← hm] at r1 r2
  have hnd : (n : ℚ) / d = x * 2 ^ p := by rw [hx]; field_simp; ring
  have habs : |(n : ℚ) / d - m * 2 ^ p| = 2 ^ p * |x - m| := by
    rw [hnd, ← sub_mul, abs_mul, abs_of_pos h2p, mul_comm]
  have hr := abs_le.mp r1
  have hm53 : m ≤ 2 ^ 53 := by
    have hx53 : x < 2 ^ 53 := by
      have h1 : x < 2 ^ (e + 1) / 2 ^ p := by
        rw [hx]; exact div_lt_div_of_pos_right he2 h2p
      have h2 : (2 : ℚ) ^ (e + 1) / 2 ^ p = 2 ^ (e + 1 - p) := by
        rw [zpow_sub₀ (by norm_num)]
      have h3 : (2 : ℚ) ^ (e + 1 - p) ≤ 2 ^ (53 : ℤ) :=
        zpow_le_zpow_right₀ (by norm_num) (by omega)
      have h4 : (2 : ℚ) ^ (53 : ℤ) = 2 ^ 53 := by norm_num
      linarith
    by_contra hc
    have : 2 ^ 53 + 1 ≤ m := by omega
    have : ((2 ^ 53 + 1 : ℕ) : ℚ) ≤ m := by exact_mod_cast this
    push_cast at this
    linarith
  have hm52 : p = -1074 ∨ 2 ^ 52 ≤ m := by
    by_cases hc : p = -1074
    · exact Or.inl hc
    · right
      have hpe : p = e - 52 := by
        rcases max_choice (e - 52) (-1074) with h | h
        · rw [hp, h]
        · exact absurd (hp.trans h) hc
      have hx52 : (2 : ℚ) ^ 52 ≤ x := by
        have h1 : (2 : ℚ) ^ e / 2 ^ p ≤ x := by
          rw [hx]; exact div_le_div_of_nonneg_right he1 (le_of_lt h2p)
        have h2 : (2 : ℚ) ^ e / 2 ^ p = 2 ^ (e - p) := by
          rw [zpow_sub₀ (by norm_num)]
        have h3 : e - p = 52 := by omega
        have h4 : (2 : ℚ) ^ (52 : ℤ) = 2 ^ 52 := by norm_num
        rw [h2, h3, h4] at h1
        exact h1
      by_contra hc2
      have : m + 1 ≤ 2 ^ 52 := by omega
      have : ((m + 1 : ℕ) : ℚ) ≤ ((2 ^ 52 : ℕ) : ℚ) := by exact_mod_cast this
      push_cast at this
      linarith
  refine ⟨m, p, hp1, hm53, hm52, ?_, ?_, ?_⟩
  · rw [habs]
    have := mul_le_mul_of_nonneg_left r1 (le_of_lt h2p)
    linarith
  · intro h
    apply r2
    rw [habs] at h
    have : 2 ^ p * (2 * |x - ↑m|) = 2 ^ p * 1 := by linarith
    exact mul_left_cancel₀ (ne_of_gt h2p) this
  · have hval : ((m * 2 ^ B : ℕ) : ℚ) / ((2 ^ A : ℕ) : ℚ) = m * 2 ^ p := by
      rw [hAB]; push_cast; ring
    have hcond : (2 ^ 1024 ≤ m * 2 ^ B) ↔ ((2 : ℚ) ^ 1024 ≤ m * 2 ^ p) := by
      rcases le_or_lt 0 p with h | h
      · have hA0 : A = 0 := Int.toNat_eq_zero.mpr (by omega)
        rw [hAB, hA0, pow_zero, div_one]
        have hc1 : ∀ k : ℕ, ((2 ^ k : ℕ) : ℚ) = (2 : ℚ) ^ k := by
          intro k
          rw [Nat.cast_pow, Nat.cast_ofNat]
        have hc2 : ((m * 2 ^ B : ℕ) : ℚ) = (m : ℚ) * (2 : ℚ) ^ B := by
          rw [Nat.cast_mul, Nat.cast_pow, Nat.cast_ofNat]
        rw [← hc1 1024, ← hc2]
        exact Nat.cast_le.symm
      · have hB0 : B = 0 := Int.toNat_eq_zero.mpr (by omega)
        have hlt : (2 : ℚ) ^ p ≤ 1 := zpow_le_one_of_nonpos₀ (by norm_num) (by omega)
        have hmq : (m : ℚ) ≤ 2 ^ 53 := by exact_mod_cast hm53
        have hpow : ∀ a b : ℕ, a < b → 2 ^ a < 2 ^ b :=
          fun a b h => Nat.pow_lt_pow_right (by norm_num) h
        have h53' := hpow 53 1024 (by norm_num)
        have h53 : (2 : ℚ) ^ 53 < 2 ^ 1024 := pow_lt_pow_right₀ (by norm_num) (by norm_num)
        constructor
        · intro h'
          rw [hB0, pow_zero, mul_one] at h'
          exact absurd (le_trans h' hm53) (not_le.mpr h53')
        · intro h'
          have h1 : (m : ℚ) * 2 ^ p ≤ m * 1 :=
            mul_le_mul_of_nonneg_left hlt (Nat.cast_nonneg m)
          rw [mul_one] at h1
          exact absurd (le_trans h' (le_trans h1 hmq)) (not_le.mpr h53)
    have key : F64.nearestMag n d =
        if 2 ^ 1024 ≤ m * 2 ^ B then none else some (mkRat ((m : ℤ) * 2 ^ B) (2 ^ A)) := by
      unfold F64.nearestMag
      rw [if_neg (Nat.ne_of_gt hn)]
    have hmk : mkRat ((m : ℤ) * 2 ^ B) (2 ^ A) = (m : ℚ) * (2 : ℚ) ^ p := by
      rw [Rat.mkRat_eq_div, ← hval]
      push_cast
      ring
    rw [key, hmk]
    by_cases hc : 2 ^ 1024 ≤ m * 2 ^ B
    · rw [if_pos hc, if_pos (hcond.mp hc)]
    · rw [if_neg hc, if_neg (fun h => hc (hcond.mpr h))]

/-- The rounding `F64.nearest` is IEEE 754 round-to-nearest-even on the positive
rationals: the result is a multiple `m * 2 ^ p` of the binary64 spacing `2 ^ p`
at the magnitude of `q` (at most 53 significant bits, full 53 above the
subnormal range), at most half a spacing away from `q`, with `m` even in a tie,
and `+Inf` exactly when that multiple is `2 ^ 1024` or more. -/
theorem nearest_spec (q : ℚ) (hq : 0 < q) :
    ∃ (m : ℕ) (p : ℤ), -1074 ≤ p ∧ m ≤ 2 ^ 53 ∧ (p = -1074 ∨ 2 ^ 52 ≤ m) ∧
      |q - (m : ℚ) * (2 : ℚ) ^ p| ≤ (2 : ℚ) ^ p / 2 ∧
      (2 * |q - (m : ℚ) * (2 : ℚ) ^ p| = (2 : ℚ) ^ p → m % 2 = 0) ∧
      F64.nearest q =
        if (2 : ℚ) ^ 1024 ≤ (m : ℚ) * (2 : ℚ) ^ p then F64.posInf
        else F64.fin ((m : ℚ) * (2 : ℚ) ^ p) := by
  have hnum : 0 < q.num := Rat.num_pos.mpr hq
  have hn : 0 < q.num.natAbs := Int.natAbs_pos.mpr (ne_of_gt hnum)
  have hcast : ((q.num.natAbs : ℕ) : ℚ) / (q.den : ℚ) = q := by
    have h1 : ((q.num.natAbs : ℕ) : ℤ) = q.num := Int.natAbs_of_nonneg (le_of_lt hnum)
    have h2 : ((q.num.natAbs : ℕ) : ℚ) = ((q.num : ℤ) : ℚ) := by
      rw [Nat.cast_natAbs, abs_of_pos hnum]
    rw [h2]
    exact Rat.num_div_den q
  obtain ⟨m, p, h1, h2, h3, h4, h5, h6⟩ := nearestMag_spec q.num.natAbs q.den hn q.den_pos
  rw [hcast] at h4 h5
  refine ⟨m, p, h1, h2, h3, h4, h5, ?_⟩
  unfold F64.nearest
  rw [h6]
  have hneg : ¬ q < 0 := not_lt.mpr (le_of_lt hq)
  by_cases hc : (2 : ℚ) ^ 1024 ≤ (m : ℚ) * (2 : ℚ) ^ p
  · simp only [hc, if_true, hneg, if_false]
  · simp only [hc, if_false, hneg]

/-! ## Rounding: known values -/

/-- The double nearest to 0.1, the largest finite double, and the first value
that rounds to `+Inf`. -/
theorem nearest_known_values :
    F64.nearest (1 / 10) = F64.fin (3602879701896397 / 36028797018963968) ∧
    F64.nearest (2 ^ 1024 - 2 ^ 970 - 1) = F64.fin ((2 ^ 53 - 1) * 2 ^ 971) ∧
    F64.nearest (2 ^ 1024 - 2 ^ 970) = F64.posInf ∧
    F64.nearest (1 / 2 ^ 1075) = F64.fin 0 ∧
    F64.nearest (3 / 2 ^ 1076) = F64.fin (1 / 2 ^ 1074) := by
  decide!

/-! ## Status -/

theorem nearest_ne_nan (q : ℚ) : F64.nearest q ≠ F64.nan := by
  unfold F64.nearest
  split
  · simp
  · split <;> simp

theorem ParseFloat_ne_nan (s : List Char) : strconv.ParseFloat s ≠ F64.nan := by
  unfold strconv.ParseFloat
  split
  · exact nearest_ne_nan _
  · simp [F64.zero]

theorem cpuValue_ne_nan (field : List Char) : cpuValue field ≠ F64.nan := by
  unfold cpuValue
  split
  · exact ParseFloat_ne_nan _
  · simp [F64.zero]

theorem statusOf_high (cpu : F64) :
    statusOf cpu = "HIGH" ↔ F64.gt cpu (F64.fin 80) = true := by
  unfold statusOf
  split_ifs with h1 h2
  · simp [h1]
  · simp only [h1]; decide
  · simp only [h1]; decide

theorem statusOf_normal (cpu : F64) (hn : cpu ≠ F64.nan) :
    statusOf cpu = "NORMAL" ↔
      F64.gt cpu (F64.fin 50) = true ∧ F64.le cpu (F64.fin 80) = true := by
  unfold statusOf
  cases cpu with
  | nan => exact absurd rfl hn
  | posInf => simp [F64.gt, F64.lt, F64.le]
  | negInf => simp [F64.gt, F64.lt, F64.le]
  | fin q =>
    simp only [F64.gt, F64.lt, F64.le, decide_eq_true_eq]
    split_ifs with h1 h2
    · constructor
      · intro h; exact absurd h (by decide)
      · rintro ⟨_, h⟩; exact absurd h1 (not_lt.mpr h)
    · simp only [true_iff]; exact ⟨h2, not_lt.mp h1⟩
    · constructor
      · intro h; exact absurd h (by decide)
      · rintro ⟨h, _⟩; exact absurd h h2

theorem statusOf_low (cpu : F64) (hn : cpu ≠ F64.nan) :
    statusOf cpu = "LOW" ↔ F64.le cpu (F64.fin 50) = true := by
  unfold statusOf
  cases cpu with
  | nan => exact absurd rfl hn
  | posInf => simp [F64.gt, F64.lt, F64.le]
  | negInf => simp [F64.gt, F64.lt, F64.le]
  | fin q =>
    simp only [F64.gt, F64.lt, F64.le, decide_eq_true_eq]
    split_ifs with h1 h2
    · constructor
      · intro h; exact absurd h (by decide)
      · intro h; linarith
    · constructor
      · intro h; exact absurd h (by decide)
      · intro h; linarith
    · simp only [true_iff]; exact not_lt.mp h2

theorem statusOf_cases (cpu : F64) :
    statusOf cpu = "HIGH" ∨ statusOf cpu = "NORMAL" ∨ statusOf cpu = "LOW" := by
  unfold statusOf
  split_ifs <;> simp

theorem cpu_80_0 : cpuValue "80.0%".toList = F64.fin 80 ∧
    statusOf (cpuValue "80.0%".toList) = "NORMAL" := by decide!

theorem cpu_80_01 : cpuValue "80.01%".toList = F64.nearest (8001 / 100) ∧
    statusOf (cpuValue "80.01%".toList) = "HIGH" := by decide!

theorem cpu_50_0 : cpuValue "50.0%".toList = F64.fin 50 ∧
    statusOf (cpuValue "50.0%".toList) = "LOW" := by decide!

theorem cpu_50_01 : cpuValue "50.01%".toList = F64.nearest (5001 / 100) ∧
    statusOf (cpuValue "50.01%".toList) = "NORMAL" := by decide!

/-! ## The pair pattern needs a digit followed by a space -/

theorem digitThenSpace_intro {c : Char} (hc : regexp.digitOrDot c = true) :
    ∀ (a b : List Char), digitThenSpace (a ++ c :: ' ' :: b) = true := by
  intro a
  induction a with
  | nil => intro b; simp [digitThenSpace, hc]
  | cons x a ih =>
    intro b
    cases a with
    | nil =>
      have := ih b
      simp only [List.nil_append] at this
      show ((regexp.digitOrDot x && c == ' ') || digitThenSpace (c :: ' ' :: b)) = true
      rw [this]
      simp
    | cons y a =>
      have := ih b
      simp only [List.cons_append] at this
      show ((regexp.digitOrDot x && y == ' ') || digitThenSpace (y :: (a ++ c :: ' ' :: b))) = true
      rw [this]
      simp

theorem digitThenSpace_of_occurs {s : List Char} (h : regexp.Occurs memRegex s) :
    digitThenSpace s = true := by
  obtain ⟨pre, m, caps, post, hs, hd⟩ := h
  simp only [memRegex, regexp.Denotes] at hd
  obtain ⟨g, m1, _, hm, _, hg0, hg, m2, hm1, _⟩ := hd
  rcases List.eq_nil_or_concat g with h0 | ⟨g', c, hgc⟩
  · exact absurd h0 hg0
  · rw [List.concat_eq_append] at hgc
    have hc : regexp.digitOrDot c = true := hg c (by simp [hgc])
    have : s = (pre ++ g') ++ c :: ' ' :: (m2 ++ post) := by
      rw [hs, hm, hm1, hgc]
      simp
    rw [this]
    exact digitThenSpace_intro hc _ _

theorem digitThenSpace_skip_nonspace : ∀ (a : List Char) (x : Char) (t : List Char),
    ' ' ∉ a → x ≠ ' ' → digitThenSpace (a ++ x :: t) = digitThenSpace (x :: t) := by
  intro a
  induction a with
  | nil => intro x t _ _; rfl
  | cons c a ih =>
    intro x t ha hx
    have ha' : ' ' ∉ a := fun h => ha (List.mem_cons_of_mem _ h)
    have ih' := ih x t ha' hx
    cases a with
    | nil =>
      simp only [List.nil_append] at ih'
      have : (x == ' ') = false := by simp [hx]
      simp [digitThenSpace, this]
    | cons y a =>
      have hy : y ≠ ' ' := fun h => ha (by simp [h])
      have : (y == ' ') = false := by simp [hy]
      simp only [List.cons_append] at ih'
      simp [digitThenSpace, this, ih']

theorem digitThenSpace_skip_other : ∀ (a t : List Char),
    (∀ c ∈ a, regexp.digitOrDot c = false) → digitThenSpace (a ++ t) = digitThenSpace t := by
  intro a
  induction a with
  | nil => intro t _; rfl
  | cons c a ih =>
    intro t ha
    have hc : regexp.digitOrDot c = false := ha c (List.mem_cons_self _ _)
    have ih' := ih t (fun x hx => ha x (List.mem_cons_of_mem _ hx))
    cases hat : a ++ t with
    | nil =>
      have ht : t = [] := (List.append_eq_nil.mp hat).2
      have ha0 : a = [] := (List.append_eq_nil.mp hat).1
      subst ht ha0
      simp [digitThenSpace]
    | cons y r =>
      rw [hat] at ih'
      simp [hat, digitThenSpace, hc, ih']

theorem pairValue_of_not_occurs {field : List Char} (h : ¬ regexp.Occurs memRegex field) :
    pairValue field = (F64.zero, F64.zero) := by
  have hf := (regexp.find_eq_none_iff memRegex field).mpr h
  simp [pairValue, pairCaptures, hf]

theorem space_not_mem_of_digitOrDot {n : List Char}
    (h : ∀ c ∈ n, regexp.digitOrDot c = true) : ' ' ∉ n := by
  intro hm
  exact absurd (h ' ' hm) (by decide)

/-- A field in the layout `docker stats` prints, a number directly followed by
its unit, then " / ", then a number directly followed by its unit, has no match
of the pair pattern. -/
theorem docker_layout_not_occurs {n1 unit1 n2 unit2 : List Char}
    (h1 : ∀ c ∈ n1, regexp.digitOrDot c = true) (h2 : ∀ c ∈ n2, regexp.digitOrDot c = true)
    (hu1 : unit1 ≠ []) (hu1' : ∀ c ∈ unit1, c ≠ ' ' ∧ regexp.digitOrDot c = false)
    (hu2 : unit2 ≠ []) (hu2' : ∀ c ∈ unit2, c ≠ ' ' ∧ regexp.digitOrDot c = false) :
    ¬ regexp.Occurs memRegex (n1 ++ unit1 ++ " / ".toList ++ n2 ++ unit2) := by
  intro ho
  have h := digitThenSpace_of_occurs ho
  obtain ⟨x, r1, hx⟩ : ∃ x r, unit1 = x :: r := by
    cases unit1 with
    | nil => exact absurd rfl hu1
    | cons x r => exact ⟨x, r, rfl⟩
  obtain ⟨y, r2, hy⟩ : ∃ y r, unit2 = y :: r := by
    cases unit2 with
    | nil => exact absurd rfl hu2
    | cons y r => exact ⟨y, r, rfl⟩
  have e : n1 ++ unit1 ++ " / ".toList ++ n2 ++ unit2 =
      n1 ++ x :: ((r1 ++ [' ', '/', ' ']) ++ (n2 ++ y :: (r2 ++ []))) := by
    rw [hx, hy]
    simp
  rw [e, digitThenSpace_skip_nonspace n1 x _ (space_not_mem_of_digitOrDot h1)
    (hu1' x (by simp [hx])).1] at h
  have e2 : x :: ((r1 ++ [' ', '/', ' ']) ++ (n2 ++ y :: (r2 ++ []))) =
      (x :: r1 ++ [' ', '/', ' ']) ++ (n2 ++ y :: (r2 ++ [])) := by simp
  rw [e2, digitThenSpace_skip_other, digitThenSpace_skip_nonspace n2 y _
    (space_not_mem_of_digitOrDot h2) (hu2' y (by simp [hy])).1] at h
  · have e3 : y :: (r2 ++ []) = (y :: r2) ++ [] := by simp
    rw [e3, digitThenSpace_skip_other] at h
    · simp [digitThenSpace] at h
    · intro c hc
      exact (hu2' c (by rw [hy]; exact hc)).2
  · intro c hc
    simp only [List.mem_append, List.mem_cons] at hc
    rcases hc with hc | hc | hc | hc | hc
    · exact (hu1' c (by rw [hx]; exact List.mem_cons.mpr hc)).2
    · subst hc; decide
    · subst hc; decide
    · subst hc; decide
    · simp at hc

/-! ## The CPU pattern -/

theorem cpu_find {pre run post : List Char} (hrun0 : run ≠ [])
    (hrun : ∀ c ∈ run, regexp.digitOrDot c = true)
    (hlast : ∀ c, pre.getLast? = some c → regexp.digitOrDot c = false)
    (hpre : ∀ a c b, pre = a ++ c :: '%' :: b → regexp.digitOrDot c = false) :
    regexp.find cpuRegex (pre ++ run ++ '%' :: post) = some (run ++ ['%'], [run]) := by
  have hm : regexp.matchAt cpuRegex (run ++ '%' :: post) = some (run ++ ['%'], [run]) :=
    regexp.matchAt_group_run regexp.digitOrDot ('%' :: post) hrun0 hrun
      (by intro x hx; simp at hx; subst hx; decide)
      (regexp.matchAt_lit '%'
        (show regexp.matchAt [] post = some ([], []) by simp [regexp.matchAt]))
  rw [List.append_assoc, regexp.find_skip pre _ ?_, regexp.find_of_matchAt hm]
  intro a b hab hb
  by_contra hne
  obtain ⟨⟨m, caps⟩, hr⟩ := Option.ne_none_iff_exists'.mp hne
  obtain ⟨hd, t, ht⟩ := regexp.matchAt_sound _ _ _ _ hr
  simp only [cpuRegex, regexp.Denotes] at hd
  obtain ⟨g, m1, c1, hmg, _, hg0, hg, m2, hm1, _, _⟩ := hd
  have hgc : ∃ g' c, g = g' ++ [c] := by
    rcases List.eq_nil_or_concat g with h0 | ⟨g', c, h⟩
    · exact absurd h0 hg0
    · exact ⟨g', c, by rw [h, List.concat_eq_append]⟩
  obtain ⟨g', c, hgc⟩ := hgc
  have hc : regexp.digitOrDot c = true := hg c (by simp [hgc])
  have e : g ++ ('%' :: (m2 ++ t)) = b ++ (run ++ '%' :: post) := by
    rw [← ht, hmg, hm1]
    simp
  rcases List.append_eq_append_iff.mp e with ⟨a', hb', hrest⟩ | ⟨c', hg', _⟩
  · cases a' with
    | nil =>
      cases run with
      | nil => exact hrun0 rfl
      | cons r rs =>
        simp only [List.nil_append, List.cons_append, List.cons.injEq] at hrest
        have := hrun r (List.mem_cons_self _ _)
        rw [← hrest.1] at this
        exact absurd this (by decide)
    | cons z a'' =>
      simp only [List.cons_append, List.cons.injEq] at hrest
      have hz : z = '%' := hrest.1.symm
      have hp : pre = (a ++ g') ++ c :: '%' :: a'' := by
        rw [hab, hb', hgc, hz]
        simp
      have := hpre _ _ _ hp
      rw [hc] at this
      exact absurd this (by simp)
  · obtain ⟨b', z, hbz⟩ : ∃ b' z, b = b' ++ [z] := by
      rcases List.eq_nil_or_concat b with h0 | ⟨b', z, h⟩
      · exact absurd h0 hb
      · exact ⟨b', z, by rw [h, List.concat_eq_append]⟩
    have hz : regexp.digitOrDot z = true := hg z (by rw [hg', hbz]; simp)
    have hl : pre.getLast? = some z := by
      rw [hab, hbz, ← List.append_assoc, List.getLast?_concat]
    have := hlast z hl
    rw [hz] at this
    exact absurd this (by simp)

theorem cpuValue_first_run {pre run : List Char} (post : List Char) (hrun0 : run ≠ [])
    (hrun : ∀ c ∈ run, regexp.digitOrDot c = true)
    (hlast : ∀ c, pre.getLast? = some c → regexp.digitOrDot c = false)
    (hpre : ∀ a c b, pre = a ++ c :: '%' :: b → regexp.digitOrDot c = false) :
    cpuValue (pre ++ run ++ '%' :: post) = strconv.ParseFloat run := by
  unfold cpuValue regexp.FindString
  rw [cpu_find hrun0 hrun hlast hpre]
  simp [TrimSuffix_append]

theorem cpuValue_no_percent {field : List Char} (h : '%' ∉ field) :
    cpuValue field = F64.zero := by
  have hf : regexp.find cpuRegex field = none := by
    rw [regexp.find_eq_none_iff]
    rintro ⟨pre, m, caps, post, hs, hd⟩
    simp only [cpuRegex, regexp.Denotes] at hd
    obtain ⟨g, m1, _, hm, _, _, _, m2, hm1, _⟩ := hd
    apply h
    rw [hs, hm, hm1]
    simp
  simp [cpuValue, regexp.FindString, hf]

theorem not_occurs_of_no_slash {field : List Char} (h : '/' ∉ field) :
    ¬ regexp.Occurs memRegex field := by
  rintro ⟨pre, m, caps, post, hs, hd⟩
  simp only [memRegex, regexp.Denotes] at hd
  obtain ⟨_, m1, _, hm, _, _, _, m2, hm1, _, m3, _, hm2, _, _, _, m4, hm3, _⟩ := hd
  apply h
  rw [hs, hm, hm1, hm2, hm3]
  simp

theorem statusOf_zero : statusOf F64.zero = "LOW" := by decide!

/-! ## The claims -/

/-- C2. On every field list with at least four fields `parseMetrics` returns a
record whose Status is a function of its CPUPercent alone: "HIGH" iff
CPUPercent > 80, "NORMAL" iff 50 < CPUPercent <= 80, "LOW" iff CPUPercent <= 50,
hence always one of the three. With the CPU field "80.0%" the record is NORMAL,
with "80.01%" HIGH, with "50.0%" LOW and with "50.01%" NORMAL. -/
theorem status_classification (parts : List (List Char)) (h : 4 ≤ parts.length) :
    (∃ m, parseMetrics parts = some m ∧
      (m.Status = "HIGH" ↔ F64.gt m.CPUPercent (F64.fin 80) = true) ∧
      (m.Status = "NORMAL" ↔
        F64.gt m.CPUPercent (F64.fin 50) = true ∧ F64.le m.CPUPercent (F64.fin 80) = true) ∧
      (m.Status = "LOW" ↔ F64.le m.CPUPercent (F64.fin 50) = true) ∧
      (m.Status = "HIGH" ∨ m.Status = "NORMAL" ∨ m.Status = "LOW")) ∧
    (∃ m, parseMetrics (parts.set 1 "80.0%".toList) = some m ∧
      m.CPUPercent = F64.fin 80 ∧ m.Status = "NORMAL") ∧
    (∃ m, parseMetrics (parts.set 1 "80.01%".toList) = some m ∧
      m.CPUPercent = F64.nearest (8001 / 100) ∧ m.Status = "HIGH") ∧
    (∃ m, parseMetrics (parts.set 1 "50.0%".toList) = some m ∧
      m.CPUPercent = F64.fin 50 ∧ m.Status = "LOW") ∧
    (∃ m, parseMetrics (parts.set 1 "50.01%".toList) = some m ∧
      m.CPUPercent = F64.nearest (5001 / 100) ∧ m.Status = "NORMAL") := by
  obtain ⟨p0, p1, p2, p3, rest, hp⟩ := exists_cons4 parts h
  subst hp
  refine ⟨⟨_, parseMetrics_cons4 p0 p1 p2 p3 rest, ?_, ?_, ?_, ?_⟩, ?_, ?_, ?_, ?_⟩
  · exact statusOf_high _
  · exact statusOf_normal _ (cpuValue_ne_nan p1)
  · exact statusOf_low _ (cpuValue_ne_nan p1)
  · exact statusOf_cases _
  · exact ⟨_, parseMetrics_cons4 p0 _ p2 p3 rest, cpu_80_0.1, cpu_80_0.2⟩
  · exact ⟨_, parseMetrics_cons4 p0 _ p2 p3 rest, cpu_80_01.1, cpu_80_01.2⟩
  · exact ⟨_, parseMetrics_cons4 p0 _ p2 p3 rest, cpu_50_0.1, cpu_50_0.2⟩
  · exact ⟨_, parseMetrics_cons4 p0 _ p2 p3 rest, cpu_50_01.1, cpu_50_01.2⟩

theorem status_classification_witness :
    4 ≤ ["web-1".toList, "85.00%".toList, "20MiB / 1GiB".toList, "3kB / 4kB".toList].length ∧
    ∃ m, parseMetrics
        ["web-1".toList, "85.00%".toList, "20MiB / 1GiB".toList, "3kB / 4kB".toList] = some m ∧
      (m.Status = "HIGH" ↔ F64.gt m.CPUPercent (F64.fin 80) = true) :=
  ⟨by decide,
    let ⟨m, hm, h1, _⟩ := (status_classification
      ["web-1".toList, "85.00%".toList, "20MiB / 1GiB".toList, "3kB / 4kB".toList]
      (by decide)).1
    ⟨m, hm, h1⟩⟩

theorem sample_services :
    (collectMetrics sampleOutput false ["web".toList]).map
        (List.map (fun m => m.Service)) = some ["web-1".toList, "web-2".toList] := by
  decide!

/-- C1. When the stats command succeeds `collectMetrics` returns exactly the
records `parseMetrics` makes, in input order, of the `|`-split fields of the
selected lines: the lines that are not empty, have at least four fields and,
when the filter list is not empty, whose first field contains one of the filter
strings as a substring (with an empty filter list every such line is selected).
Nothing is re-ordered, duplicated or dropped. On the sample with the services
web-1, web-2 and cache-1 and the filter `["web"]` the records are those of
web-1 and web-2, in that order. -/
theorem collectMetrics_selected_in_order :
    (∀ (output : List Char) (services : List (List Char)),
      ∃ rs, collectMetrics output false services = some rs ∧
        rs.map some = ((strings.Split '\n' output).filter
          (fun l => decide (Selected services l))).map
            (fun l => parseMetrics (strings.Split '|' l))) ∧
    (∀ line : List Char, Selected [] line ↔
      (line ≠ [] ∧ 4 ≤ (strings.Split '|' line).length)) ∧
    (∀ (service sub : List Char), strings.Contains service sub = true ↔ sub <:+: service) ∧
    (collectMetrics sampleOutput false ["web".toList]).map
        (List.map (fun m => m.Service)) = some ["web-1".toList, "web-2".toList] := by
  refine ⟨collectMetrics_eq, ?_, Contains_iff, sample_services⟩
  intro line
  simp [Selected]

/-- C7. The parsing pipeline never panics: `parseMetrics` returns on every list
of at least four fields, the two submatch lookups of the memory and network
blocks are always in bounds, `collectMetrics` returns whatever the output, the
command status and the filter are, and after a successful command it returns
exactly one record for each selected line, each record being what
`parseMetrics` makes of a line with at least four fields. -/
theorem pipeline_never_panics :
    (∀ parts : List (List Char), 4 ≤ parts.length → (parseMetrics parts).isSome = true) ∧
    (∀ (metric : ResourceMetrics) (field : List Char),
      (parseMemory metric field).isSome = true ∧ (parseNetwork metric field).isSome = true) ∧
    (∀ (output : List Char) (failed : Bool) (services : List (List Char)),
      (collectMetrics output failed services).isSome = true) ∧
    (∀ (output : List Char) (services : List (List Char)),
      ∃ rs, collectMetrics output false services = some rs ∧
        rs.length = ((strings.Split '\n' output).filter
          (fun l => decide (Selected services l))).length ∧
        ∀ m ∈ rs, ∃ line ∈ strings.Split '\n' output,
          4 ≤ (strings.Split '|' line).length ∧
            parseMetrics (strings.Split '|' line) = some m) := by
  refine ⟨?_, ?_, ?_, ?_⟩
  · intro parts h
    obtain ⟨p0, p1, p2, p3, rest, hp⟩ := exists_cons4 parts h
    rw [hp, parseMetrics_cons4]
    rfl
  · intro metric field
    rw [parseMemory_eq, parseNetwork_eq]
    exact ⟨rfl, rfl⟩
  · intro output failed services
    cases failed with
    | true => simp [collectMetrics]
    | false =>
      obtain ⟨rs, hrs, _⟩ := collectMetrics_eq output services
      rw [hrs]
      rfl
  · intro output services
    obtain ⟨rs, hrs, hmap⟩ := collectMetrics_eq output services
    refine ⟨rs, hrs, ?_, ?_⟩
    · have := congrArg List.length hmap
      simpa using this
    · intro m hm
      have hm' : some m ∈ rs.map some := List.mem_map.mpr ⟨m, hm, rfl⟩
      rw [hmap] at hm'
      obtain ⟨line, hline, hpm⟩ := List.mem_map.mp hm'
      obtain ⟨hmem, hsel⟩ := List.mem_filter.mp hline
      have hsel' : Selected services line := of_decide_eq_true hsel
      exact ⟨line, hmem, hsel'.2.1, hpm⟩

theorem pipeline_never_panics_witness :
    4 ≤ ["web-1".toList, "n/a".toList, "unavailable".toList, "--".toList].length ∧
    (parseMetrics
      ["web-1".toList, "n/a".toList, "unavailable".toList, "--".toList]).isSome = true :=
  ⟨by decide, pipeline_never_panics.1 _ (by decide)⟩

/-- C8. When the stats command fails `collectMetrics` returns the empty record
sequence, for every filter list and whatever text the command printed, and the
run goes on: `main` generates the report, in the selected format, from zero
records. -/
theorem collectMetrics_failed (output : List Char) (services : List (List Char)) :
    collectMetrics output true services = some [] ∧
    ∀ osArgs : List (List Char), 2 ≤ osArgs.length →
      (main osArgs output true = Outcome.jsonReport [] ∨
       main osArgs output true = Outcome.htmlReport [] ∨
       main osArgs output true = Outcome.textReport []) := by
  refine ⟨by simp [collectMetrics], ?_⟩
  intro osArgs h
  have h2 : ¬ osArgs.length < 2 := by omega
  simp only [main, h2, if_false, collectMetrics, if_true, generateReport]
  split_ifs <;> simp

theorem collectMetrics_failed_witness :
    2 ≤ ["resourcereport".toList, "--json".toList].length ∧
    main ["resourcereport".toList, "--json".toList]
      "Cannot connect to the Docker daemon".toList true = Outcome.jsonReport [] :=
  ⟨by decide, by
    rcases (collectMetrics_failed "Cannot connect to the Docker daemon".toList []).2
      ["resourcereport".toList, "--json".toList] (by decide) with h | h | h
    · exact h
    · exact absurd h (by decide)
    · exact absurd h (by decide)⟩

/-- C10. Run with no argument at all (`os.Args` holds the program name only)
`main` prints the usage text and ends in `os.Exit(1)`, before any metrics are
collected, although that usage text gives the bare `resourcereport` as its first
example; the defaults the text promises (text format, no filter) are what a run
with one empty argument gets. -/
theorem main_without_arguments (prog output : List Char) (failed : Bool) :
    main [prog] output failed = Outcome.exit 1 ∧
    main [prog, []] output failed =
      (match collectMetrics output failed [] with
       | none => Outcome.panicked
       | some metrics => Outcome.textReport metrics) := by
  constructor
  · simp [main]
  · simp only [main, List.length_cons, List.length_nil, List.drop_succ_cons, List.drop_zero,
      parseArgs]
    simp [generateReport]

/-- C5. When the memory field is exactly `n1 u1/n2 u2`, with `n1` and `n2`
numerals (one or more digits, optionally a decimal point and one or more
further digits) and `u1`, `u2` non-empty texts without a slash, `parseMetrics`
returns MemoryUsed and MemoryTotal equal to the values of `n1` and `n2` as
float64 numbers, whatever the units are; a network field of that form gives
NetworkRX and NetworkTX in the same way. -/
theorem pair_field_values (p0 p1 p2 p3 : List Char) (rest : List (List Char))
    (d1 f1 u1 d2 f2 u2 : List Char)
    (hd1 : d1 ≠ []) (hd1' : AllDigits d1) (hf1 : AllDigits f1)
    (hd2 : d2 ≠ []) (hd2' : AllDigits d2) (hf2 : AllDigits f2)
    (hu1 : u1 ≠ []) (hu1' : '/' ∉ u1) (hu2 : u2 ≠ []) (hu2' : '/' ∉ u2) :
    (∃ m, parseMetrics
        (p0 :: p1 :: (numeral d1 f1 ++ ' ' :: u1 ++ '/' :: numeral d2 f2 ++ ' ' :: u2) ::
          p3 :: rest) = some m ∧
      m.MemoryUsed = F64.nearest (numeralValue d1 f1) ∧
      m.MemoryTotal = F64.nearest (numeralValue d2 f2)) ∧
    (∃ m, parseMetrics
        (p0 :: p1 :: p2 :: (numeral d1 f1 ++ ' ' :: u1 ++ '/' :: numeral d2 f2 ++ ' ' :: u2) ::
          rest) = some m ∧
      m.NetworkRX = F64.nearest (numeralValue d1 f1) ∧
      m.NetworkTX = F64.nearest (numeralValue d2 f2)) := by
  have hc := pairCaptures_exact (numeral_ne_nil hd1) (numeral_digitOrDot hd1' hf1)
    (numeral_ne_nil hd2) (numeral_digitOrDot hd2' hf2) hu1 hu1' hu2 hu2'
  have hv : pairValue (numeral d1 f1 ++ ' ' :: u1 ++ '/' :: numeral d2 f2 ++ ' ' :: u2) =
      (F64.nearest (numeralValue d1 f1), F64.nearest (numeralValue d2 f2)) := by
    simp only [pairValue, hc, ParseFloat_numeral d1 f1 hd1 hd1' hf1,
      ParseFloat_numeral d2 f2 hd2 hd2' hf2]
  refine ⟨⟨_, parseMetrics_cons4 _ _ _ _ _, ?_, ?_⟩, ⟨_, parseMetrics_cons4 _ _ _ _ _, ?_, ?_⟩⟩
  · simp only [hv]
  · simp only [hv]
  · simp only [hv]
  · simp only [hv]

theorem nearest_512 : F64.nearest (numeralValue "512".toList []) = F64.fin 512 := by decide!

theorem nearest_1024 : F64.nearest (numeralValue "1024".toList []) = F64.fin 1024 := by decide!

theorem pair_field_values_witness :
    ∃ m, parseMetrics ["web-1".toList, "0.50%".toList, "512 MiB/1024 MiB".toList,
        "1kB / 2kB".toList] = some m ∧
      m.MemoryUsed = F64.fin 512 ∧ m.MemoryTotal = F64.fin 1024 :=
  let ⟨m, hm, h1, h2⟩ := (pair_field_values "web-1".toList "0.50%".toList [] "1kB / 2kB".toList []
    "512".toList [] "MiB".toList "1024".toList [] "MiB".toList
    (by decide) (by decide) (by decide) (by decide) (by decide) (by decide)
    (by decide) (by decide) (by decide) (by decide)).1
  ⟨m, hm, h1.trans nearest_512, h2.trans nearest_1024⟩

/-- C3. On a memory field in the layout of the stats source, a number directly
followed by its unit, then " / ", then a number directly followed by its unit,
`parseMetrics` returns MemoryUsed = 0 and MemoryTotal = 0, not the two numbers:
the pattern asks for a space between a number and its unit. -/
theorem memory_docker_layout (p0 p1 p3 : List Char) (rest : List (List Char))
    (d1 f1 unit1 d2 f2 unit2 : List Char)
    (hd1 : AllDigits d1) (hf1 : AllDigits f1) (hd2 : AllDigits d2) (hf2 : AllDigits f2)
    (hu1 : unit1 ≠ []) (hu1' : ∀ c ∈ unit1, c ≠ ' ' ∧ regexp.digitOrDot c = false)
    (hu2 : unit2 ≠ []) (hu2' : ∀ c ∈ unit2, c ≠ ' ' ∧ regexp.digitOrDot c = false) :
    ∃ m, parseMetrics
        (p0 :: p1 :: (numeral d1 f1 ++ unit1 ++ " / ".toList ++ numeral d2 f2 ++ unit2) ::
          p3 :: rest) = some m ∧
      m.MemoryUsed = F64.zero ∧ m.MemoryTotal = F64.zero := by
  have hv := pairValue_of_not_occurs (docker_layout_not_occurs
    (numeral_digitOrDot hd1 hf1) (numeral_digitOrDot hd2 hf2) hu1 hu1' hu2 hu2')
  refine ⟨_, parseMetrics_cons4 _ _ _ _ _, ?_, ?_⟩
  · simp only [hv]
  · simp only [hv]

theorem memory_docker_layout_witness :
    ∃ m, parseMetrics ["web-1".toList, "0.50%".toList, "512MiB / 1024MiB".toList,
        "1kB / 2kB".toList] = some m ∧
      m.MemoryUsed = F64.zero ∧ m.MemoryTotal = F64.zero ∧
      F64.zero ≠ F64.fin 512 ∧ F64.zero ≠ F64.fin 1024 :=
  let ⟨m, hm, h1, h2⟩ := memory_docker_layout "web-1".toList "0.50%".toList "1kB / 2kB".toList []
    "512".toList [] "MiB".toList "1024".toList [] "MiB".toList
    (by decide) (by decide) (by decide) (by decide)
    (by decide) (by decide) (by decide) (by decide)
  ⟨m, hm, h1, h2, by decide!, by decide!⟩

theorem empty_service_sample :
    (collectMetrics "|5%|x|y".toList false []).map (List.map (fun m => m.Service)) =
      some [[]] := by decide!

/-- C9, as stated, fails: the line `|5%|x|y` has four fields, the first of them
empty, and with no filter `collectMetrics` makes a record of it whose Service
is the empty string. -/
theorem service_can_be_empty :
    ¬ ∀ (output : List Char) (services : List (List Char)) (rs : List ResourceMetrics),
      collectMetrics output false services = some rs → ∀ m ∈ rs, m.Service ≠ [] := by
  intro h
  obtain ⟨rs, hrs, _⟩ := collectMetrics_eq "|5%|x|y".toList []
  have e := empty_service_sample
  rw [hrs] at e
  simp only [Option.map_some', Option.some.injEq] at e
  cases rs with
  | nil => simp at e
  | cons m rest =>
    simp only [List.map_cons, List.cons.injEq] at e
    exact h _ _ _ hrs m (List.mem_cons_self _ _) e.1

/-- C9, amended. Every record `collectMetrics` returns has as Service the text
before the first `|` of a non-empty line of the output; that name is not empty
whenever the filter list is not empty and holds no empty string. -/
theorem service_is_first_field (output : List Char) (failed : Bool)
    (services : List (List Char)) :
    ∃ rs, collectMetrics output failed services = some rs ∧
      ∀ m ∈ rs,
        (∃ line ∈ strings.Split '\n' output, line ≠ [] ∧
          m.Service = line.takeWhile (fun c => c != '|')) ∧
        (services ≠ [] → (∀ s ∈ services, s ≠ []) → m.Service ≠ []) := by
  cases failed with
  | true => exact ⟨[], by simp [collectMetrics], by simp⟩
  | false =>
    obtain ⟨rs, hrs, hmap⟩ := collectMetrics_eq output services
    refine ⟨rs, hrs, ?_⟩
    intro m hm
    have hm' : some m ∈ rs.map some := List.mem_map.mpr ⟨m, hm, rfl⟩
    rw [hmap] at hm'
    obtain ⟨line, hline, hpm⟩ := List.mem_map.mp hm'
    obtain ⟨hmem, hsel⟩ := List.mem_filter.mp hline
    have hsel' : Selected services line := of_decide_eq_true hsel
    obtain ⟨hne, h4, hflt⟩ := hsel'
    obtain ⟨p0, p1, p2, p3, rest, hp⟩ := exists_cons4 _ h4
    have hff := firstField_Split '|' line
    rw [hp] at hpm hflt hff
    rw [parseMetrics_cons4] at hpm
    have hsvc : m.Service = p0 := by
      have := Option.some.inj hpm
      rw [← this]
    simp only [firstField, List.headD_cons] at hff hflt
    refine ⟨⟨line, hmem, hne, by rw [hsvc, hff]⟩, ?_⟩
    intro hs0 hs
    rcases hflt with h | ⟨s, hsm, hinf⟩
    · exact absurd h hs0
    · intro h0
      rw [hsvc] at h0
      rw [h0] at hinf
      exact hs s hsm (List.infix_nil.mp hinf)

theorem service_is_first_field_witness :
    ∃ rs, collectMetrics sampleOutput false ["web".toList] = some rs ∧
      ∀ m ∈ rs, m.Service ≠ [] :=
  let ⟨rs, hrs, h⟩ := service_is_first_field sampleOutput false ["web".toList]
  ⟨rs, hrs, fun m hm => (h m hm).2 (by decide) (by decide)⟩

theorem point_five_value : cpuValue ".5%".toList = F64.fin (1 / 2) := by decide!

theorem nearest_five : F64.nearest (numeralValue ['5'] []) = F64.fin 5 := by decide!

/-- C4, as stated, fails on the CPU field `.5%`: its only run of digits
(optionally a point and further digits) in front of a `%` is `5`, of value 5,
while the pattern `([\d.]+)%` takes `.5` and CPUPercent is 0.5. -/
theorem cpu_point_five :
    ".5%".toList = ['.'] ++ numeral ['5'] [] ++ '%' :: [] ∧
    (∀ pre ds fs post : List Char, ".5%".toList = pre ++ numeral ds fs ++ '%' :: post →
      ds ≠ [] → AllDigits ds → AllDigits fs → pre = ['.'] ∧ ds = ['5'] ∧ fs = []) ∧
    F64.nearest (numeralValue ['5'] []) = F64.fin 5 ∧
    ∀ (p0 p2 p3 : List Char) (rest : List (List Char)),
      ∃ m, parseMetrics (p0 :: ".5%".toList :: p2 :: p3 :: rest) = some m ∧
        m.CPUPercent = F64.fin (1 / 2) ∧
        m.CPUPercent ≠ F64.nearest (numeralValue ['5'] []) := by
  refine ⟨by decide, ?_, nearest_five, ?_⟩
  · intro pre ds fs post h hd hd' hf
    obtain ⟨d, ds', hds⟩ : ∃ d ds', ds = d :: ds' := by
      cases ds with
      | nil => exact absurd rfl hd
      | cons d ds' => exact ⟨d, ds', rfl⟩
    have hdig : d.isDigit = true := hd' d (by simp [hds])
    obtain ⟨N, hN⟩ : ∃ N, numeral ds fs = d :: N := by
      unfold numeral
      split
      · exact ⟨ds', hds⟩
      · exact ⟨ds' ++ '.' :: fs, by simp [hds]⟩
    rw [hN] at h
    have hshape : pre = ['.'] ∧ d = '5' ∧ N = [] := by
      rcases pre with _ | ⟨x, _ | ⟨y, pre'⟩⟩
      · simp only [String.toList, List.nil_append, List.cons_append, List.cons.injEq] at h
        rw [← h.1] at hdig
        exact absurd hdig (by decide)
      · simp only [String.toList, List.cons_append, List.nil_append, List.cons.injEq] at h
        obtain ⟨hx, hd5, hrest⟩ := h
        cases N with
        | nil => exact ⟨by rw [← hx], hd5.symm, rfl⟩
        | cons n N' =>
          simp only [List.cons_append, List.cons.injEq] at hrest
          exact absurd hrest.2 (by simp)
      · simp only [String.toList, List.cons_append, List.cons.injEq] at h
        obtain ⟨_, _, hrest⟩ := h
        have := congrArg List.length hrest
        simp at this
        omega
    obtain ⟨hp, hd5, hN0⟩ := hshape
    subst hN0
    refine ⟨hp, ?_⟩
    unfold numeral at hN
    split at hN
    · rename_i hfs
      exact ⟨by rw [hN, hd5], hfs⟩
    · rw [hds] at hN
      simp at hN
  · intro p0 p2 p3 rest
    refine ⟨_, parseMetrics_cons4 _ _ _ _ _, point_five_value, ?_⟩
    show cpuValue ".5%".toList ≠ _
    rw [point_five_value, nearest_five]
    decide!

/-- C4, amended. When the first run of digits and full stops that ends in front
of a `%` (a run not preceded by a digit or full stop, with no digit or full stop
directly in front of a `%` before it) is a numeral, one or more digits,
optionally a decimal point and one or more further digits, CPUPercent is the
value of that numeral as a float64 number; in general CPUPercent is what
`strconv.ParseFloat` makes of the whole run. -/
theorem cpu_first_run (p0 p2 p3 : List Char) (rest : List (List Char))
    (pre run post : List Char) (hrun0 : run ≠ [])
    (hrun : ∀ c ∈ run, regexp.digitOrDot c = true)
    (hlast : ∀ c, pre.getLast? = some c → regexp.digitOrDot c = false)
    (hpre : ∀ a c b, pre = a ++ c :: '%' :: b → regexp.digitOrDot c = false) :
    ∃ m, parseMetrics (p0 :: (pre ++ run ++ '%' :: post) :: p2 :: p3 :: rest) = some m ∧
      m.CPUPercent = strconv.ParseFloat run ∧
      ∀ ds fs, run = numeral ds fs → ds ≠ [] → AllDigits ds → AllDigits fs →
        m.CPUPercent = F64.nearest (numeralValue ds fs) := by
  have hv := cpuValue_first_run post hrun0 hrun hlast hpre
  refine ⟨_, parseMetrics_cons4 _ _ _ _ _, hv, ?_⟩
  intro ds fs hr hd hd' hf
  show cpuValue _ = _
  rw [hv, hr, ParseFloat_numeral ds fs hd hd' hf]

theorem nearest_12_5 : F64.nearest (numeralValue "12".toList "5".toList) = F64.fin (25 / 2) := by
  decide!

theorem cpu_first_run_witness :
    ∃ m, parseMetrics ["web-1".toList, "12.5%".toList, "10MiB / 1GiB".toList,
        "1kB / 2kB".toList] = some m ∧ m.CPUPercent = F64.fin (25 / 2) :=
  let ⟨m, hm, _, h⟩ := cpu_first_run "web-1".toList "10MiB / 1GiB".toList "1kB / 2kB".toList []
    [] "12.5".toList [] (by decide) (by decide) (by simp) (by simp)
  ⟨m, hm, (h "12".toList "5".toList (by decide) (by decide) (by decide) (by decide)).trans
    nearest_12_5⟩

/-- C6. Malformed numeric sub-fields default one by one. On every list of at
least four fields the record is produced; a CPU field without `%` gives
CPUPercent = 0 and Status "LOW"; a memory field without a match of the pair
pattern, in particular one without `/`, gives MemoryUsed = 0 and
MemoryTotal = 0; a network field likewise gives NetworkRX = 0 and NetworkTX = 0;
and replacing one of the three sub-fields by any other text leaves the fields of
the record that are read from the others as they were. -/
theorem malformed_fields_default (p0 p1 p2 p3 : List Char) (rest : List (List Char)) :
    ∃ m, parseMetrics (p0 :: p1 :: p2 :: p3 :: rest) = some m ∧ m.Service = p0 ∧
      ('%' ∉ p1 → m.CPUPercent = F64.zero ∧ m.Status = "LOW") ∧
      (¬ regexp.Occurs memRegex p2 → m.MemoryUsed = F64.zero ∧ m.MemoryTotal = F64.zero) ∧
      ('/' ∉ p2 → ¬ regexp.Occurs memRegex p2) ∧
      (¬ regexp.Occurs memRegex p3 → m.NetworkRX = F64.zero ∧ m.NetworkTX = F64.zero) ∧
      ('/' ∉ p3 → ¬ regexp.Occurs memRegex p3) ∧
      (∀ x, ∃ m', parseMetrics (p0 :: x :: p2 :: p3 :: rest) = some m' ∧
        m'.Service = m.Service ∧ m'.MemoryUsed = m.MemoryUsed ∧
        m'.MemoryTotal = m.MemoryTotal ∧ m'.NetworkRX = m.NetworkRX ∧
        m'.NetworkTX = m.NetworkTX ∧ m'.DiskUsed = m.DiskUsed ∧ m'.DiskTotal = m.DiskTotal) ∧
      (∀ x, ∃ m', parseMetrics (p0 :: p1 :: x :: p3 :: rest) = some m' ∧
        m'.Service = m.Service ∧ m'.CPUPercent = m.CPUPercent ∧ m'.Status = m.Status ∧
        m'.NetworkRX = m.NetworkRX ∧ m'.NetworkTX = m.NetworkTX ∧
        m'.DiskUsed = m.DiskUsed ∧ m'.DiskTotal = m.DiskTotal) ∧
      (∀ x, ∃ m', parseMetrics (p0 :: p1 :: p2 :: x :: rest) = some m' ∧
        m'.Service = m.Service ∧ m'.CPUPercent = m.CPUPercent ∧ m'.Status = m.Status ∧
        m'.MemoryUsed = m.MemoryUsed ∧ m'.MemoryTotal = m.MemoryTotal ∧
        m'.DiskUsed = m.DiskUsed ∧ m'.DiskTotal = m.DiskTotal) := by
  refine ⟨_, parseMetrics_cons4 _ _ _ _ _, rfl, ?_, ?_, not_occurs_of_no_slash, ?_,
    not_occurs_of_no_slash, ?_, ?_, ?_⟩
  · intro h
    simp only [cpuValue_no_percent h, statusOf_zero, and_self]
  · intro h
    simp only [pairValue_of_not_occurs h, and_self]
  · intro h
    simp only [pairValue_of_not_occurs h, and_self]
  · intro x
    exact ⟨_, parseMetrics_cons4 _ _ _ _ _, rfl, rfl, rfl, rfl, rfl, rfl, rfl⟩
  · intro x
    exact ⟨_, parseMetrics_cons4 _ _ _ _ _, rfl, rfl, rfl, rfl, rfl, rfl, rfl⟩
  · intro x
    exact ⟨_, parseMetrics_cons4 _ _ _ _ _, rfl, rfl, rfl, rfl, rfl, rfl, rfl⟩

theorem malformed_fields_default_witness :
    ∃ m, parseMetrics ["web-1".toList, "n/a".toList, "unavailable".toList, "--".toList] =
        some m ∧
      m.Service = "web-1".toList ∧ m.CPUPercent = F64.zero ∧ m.Status = "LOW" ∧
      m.MemoryUsed = F64.zero ∧ m.MemoryTotal = F64.zero ∧
      m.NetworkRX = F64.zero ∧ m.NetworkTX = F64.zero :=
  let ⟨m, hm, hs, hc, hmem, hmem', hnet, hnet', _⟩ :=
    malformed_fields_default "web-1".toList "n/a".toList "unavailable".toList "--".toList []
  ⟨m, hm, hs, (hc (by decide)).1, (hc (by decide)).2,
    (hmem (hmem' (by decide))).1, (hmem (hmem' (by decide))).2,
    (hnet (hnet' (by decide))).1, (hnet (hnet' (by decide))).2⟩

end ResourceReport
